import Mathlib

/-
Verification of cvxpy/lin_ops/lin_to_matrix.py: the compiler from linear
operator trees to lists of (id, size, coefficient-block) triples.

Matrices are modelled untyped: a Mat carries its dimensions and a total
entry function into the rationals.  The global vectorization convention is
column-major (the repository's numeric interface layer is not part of the
sources; the spec recommends column-major applied uniformly, and the
TRANSPOSE permutation built by the source is exactly the column-major
vec-transpose permutation).
-/

namespace Lin

/-- An untyped dense/sparse matrix: dimensions plus a total entry function. -/
structure Mat where
  rows : ℕ
  cols : ℕ
  entry : ℕ → ℕ → ℚ

/-- The identifier slot of a coefficient triple: the reserved constant
sentinel (lo.CONSTANT_ID) or a variable identifier. -/
inductive CoeffId where
  | const : CoeffId
  | var : ℕ → CoeffId
  deriving DecidableEq

/-- One (id, size, coefficient) triple as returned by get_coefficients. -/
structure Coeff where
  id : CoeffId
  size : ℕ × ℕ
  block : Mat

/-- Failure modes of the compiler: the dispatcher's unknown-operator raise,
the TRANSPOSE arity assertion, and the nonterminating MUL accumulation loop
(modelled as an error value; see iterAppend_spin below). -/
inductive CompileError where
  | unsupportedOperator : CompileError
  | arityMismatch : CompileError
  | nontermination : CompileError
  deriving DecidableEq

/-- A Python slice with optional start, stop and step. -/
structure PySlice where
  start : Option ℕ
  stop : Option ℕ
  step : Option ℕ

/-- The slice selecting everything: slice(None, None, None). -/
def fullSlice : PySlice := ⟨none, none, none⟩

/-- An INDEX key: a row slice and a column slice. -/
def Key : Type := PySlice × PySlice

/-- Modelled from the spec: ku.scale_slice (cvxpy.utilities.key_utils is not
among the sources).  The column slice of an INDEX node selects which stacked
column blocks participate, scaled by the variable's row count: the bounds of
the slice are multiplied by the factor, absent bounds stay absent. -/
def scale_slice (s : PySlice) (k : ℕ) : PySlice :=
  ⟨s.start.map (· * k), s.stop.map (· * k), s.step⟩

/-- Modelled from the spec: ku.offset_slice (cvxpy.utilities.key_utils is not
among the sources).  The row slice is reapplied within each selected column
block, offset by the block's position: the bounds are shifted by the offset,
absent bounds stay absent. -/
def offset_slice (s : PySlice) (off : ℕ) : PySlice :=
  ⟨s.start.map (· + off), s.stop.map (· + off), s.step⟩

/-- The list of indices a slice selects from a dimension of length len,
with Python defaults (start 0, stop len, step 1) and clamping. -/
def sliceList (s : PySlice) (len : ℕ) : List ℕ :=
  let st := s.start.getD 0
  let sp := min (s.stop.getD len) len
  let stp := max (s.step.getD 1) 1
  (List.range len).filter fun i => st ≤ i && i < sp && (i - st) % stp == 0

/-- Modelled from the spec: intf.index (cvxpy.interface is not among the
sources) selects the rows and columns of a matrix named by the two slices
of a key. -/
def matIndex (A : Mat) (k : Key) : Mat :=
  let rs := sliceList k.1 A.rows
  let cs := sliceList k.2 A.cols
  ⟨rs.length, cs.length, fun i j => A.entry (rs.getD i 0) (cs.getD j 0)⟩

/-- sp.eye n: the n by n identity. -/
def spEye (n : ℕ) : Mat := ⟨n, n, fun i j => if i = j then 1 else 0⟩

/-- Elementwise negation of a matrix (the unary minus on blocks). -/
def negMat (B : Mat) : Mat := ⟨B.rows, B.cols, fun i j => -(B.entry i j)⟩

/-- Scalar times matrix. -/
def smul (c : ℚ) (B : Mat) : Mat := ⟨B.rows, B.cols, fun i j => c * B.entry i j⟩

/-- Matrix product; the inner dimension is the left factor's column count. -/
def matMul (A B : Mat) : Mat :=
  ⟨A.rows, B.cols, fun i j => ∑ t ∈ Finset.range A.cols, A.entry i t * B.entry t j⟩

/-- Converts a matrix into a column vector (the source's flatten), in the
global column-major order. -/
def flatten (A : Mat) : Mat :=
  ⟨A.rows * A.cols, 1, fun i _ => A.entry (i % A.rows) (i / A.rows)⟩

/-- np.sum over the whole matrix: the scalar sum of all entries. -/
def matTotal (A : Mat) : ℚ :=
  ∑ i ∈ Finset.range A.rows, ∑ j ∈ Finset.range A.cols, A.entry i j

/-- A one by one matrix holding a scalar. -/
def scalarMat (c : ℚ) : Mat := ⟨1, 1, fun _ _ => c⟩

/-- block.sum(axis=0): sums the rows of a block into a single row. -/
def rowSum (B : Mat) : Mat :=
  ⟨1, B.cols, fun _ j => ∑ i ∈ Finset.range B.rows, B.entry i j⟩

/-- sp.block_diag(n*[C]): n copies of C along the diagonal. -/
def blockDiag (n : ℕ) (C : Mat) : Mat :=
  ⟨n * C.rows, n * C.cols, fun a b =>
    if a / C.rows = b / C.cols then C.entry (a % C.rows) (b % C.cols) else 0⟩

/-- Modelled from the spec: intf.is_scalar (cvxpy.interface is not among the
sources): whether a value is scalar shaped. -/
def isScalar (A : Mat) : Bool := A.rows == 1 && A.cols == 1

/-- The Python expression constant*coeff under the numeric interface:
scalar times matrix when the constant is scalar, matrix product otherwise. -/
def pyMulConst (constant coeff : Mat) : Mat :=
  if isScalar constant then smul (constant.entry 0 0) coeff else matMul constant coeff

/-- The TRANSPOSE coefficient block built by the source's double loop:
new_block[row*cols + col, col*rows + row] = 1.0 for every row < rows and
col < cols, zero elsewhere.  Here (r, c) is the argument triple's shape. -/
def transposePerm (r c : ℕ) : Mat :=
  ⟨r * c, r * c, fun a b => if a < r * c ∧ b = (a % c) * r + a / c then 1 else 0⟩

/-- The linear operator tree.  One constructor per recognized kind, carrying
the node's size and the kind's payload, plus UNKNOWN standing for any node
whose type is none of the recognized kinds (the else branch of the
dispatcher). -/
inductive LinOp where
  | VARIABLE : ℕ → ℕ × ℕ → LinOp
  | PARAM : ℕ × ℕ → Mat → LinOp
  | SCALAR_CONST : ℕ × ℕ → Mat → LinOp
  | DENSE_CONST : ℕ × ℕ → Mat → LinOp
  | SPARSE_CONST : ℕ × ℕ → Mat → LinOp
  | SUM : ℕ × ℕ → List LinOp → LinOp
  | NEG : ℕ × ℕ → LinOp → LinOp
  | MUL : ℕ × ℕ → LinOp → LinOp → LinOp
  | SUM_ENTRIES : ℕ × ℕ → LinOp → LinOp
  | INDEX : ℕ × ℕ → Key → LinOp → LinOp
  | TRANSPOSE : ℕ × ℕ → LinOp → LinOp
  | UNKNOWN : ℕ × ℕ → LinOp

/-- lin_op.size. -/
def LinOp.size : LinOp → ℕ × ℕ
  | .VARIABLE _ sz => sz
  | .PARAM sz _ => sz
  | .SCALAR_CONST sz _ => sz
  | .DENSE_CONST sz _ => sz
  | .SPARSE_CONST sz _ => sz
  | .SUM sz _ => sz
  | .NEG sz _ => sz
  | .MUL sz _ _ => sz
  | .SUM_ENTRIES sz _ => sz
  | .INDEX sz _ _ => sz
  | .TRANSPOSE sz _ => sz
  | .UNKNOWN sz => sz

/-- The per-triple transformation of sum_entries_coeffs: the constant
triple becomes shape (1,1) with the scalar total of its block, a variable
triple keeps identifier and size and its block is summed over axis 0. -/
def sumEntriesTriple (t : Coeff) : Coeff :=
  match t.id with
  | .const => ⟨.const, (1, 1), scalarMat (matTotal t.block)⟩
  | .var v => ⟨.var v, t.size, rowSum t.block⟩

/-- The body of mul_coeffs' inner loop for one left triple lt and one
right triple t: pick the product by the source's shape priority rules and
keep the right triple's identifier and size. -/
def mulPair (cols : ℕ) (lt : Coeff) (t : Coeff) : Coeff :=
  let product :=
    if isScalar lt.block || (t.id == CoeffId.const) || (cols == 1) then
      pyMulConst lt.block t.block
    else if lt.size ≠ (1, 1) ∧ t.size = (1, 1) then
      matMul (flatten lt.block) t.block
    else
      matMul (blockDiag cols lt.block) t.block
  ⟨t.id, t.size, product⟩

/-- Fueled model of Python's inner for-loop over a list that the body
appends to (after the source reassigns rh_coeffs = new_coeffs the two names
alias one list): read the element at the live index, append the product,
advance.  Runs out of any finite fuel whenever the list is nonempty. -/
def iterAppend (f : Coeff → Coeff) : ℕ → List Coeff → ℕ → Option (List Coeff)
  | 0, _, _ => none
  | fuel + 1, live, i =>
    if h : i < live.length then
      iterAppend f fuel (live ++ [f (live.get ⟨i, h⟩)]) (i + 1)
    else
      some live

/-- The accumulation loop of mul_coeffs.  With no left triple nothing is
appended; with exactly one left triple the loop maps over the right triples;
with two or more left triples the second outer iteration traverses the very
list it appends to (rh_coeffs = new_coeffs aliases them), which never
terminates unless that list is empty — iterAppend_spin below proves the
aliased traversal exhausts every finite fuel, so this case is the
nontermination error (or the empty list when the right side was empty). -/
def mulLoop (cols : ℕ) : List Coeff → List Coeff → Except CompileError (List Coeff)
  | [], _ => .ok []
  | [lt], rh => .ok (rh.map (mulPair cols lt))
  | _ :: _ :: _, rh => if rh.isEmpty then .ok [] else .error .nontermination

mutual

/-- get_coefficients: converts a linear op into coefficients, one case per
recognized kind, the else branch raising the unsupported operator error. -/
def get_coefficients : LinOp → Except CompileError (List Coeff)
  | .VARIABLE id sz => .ok [⟨.var id, sz, spEye (sz.1 * sz.2)⟩]
  | .PARAM sz value => .ok [⟨.const, sz, value⟩]
  | .SCALAR_CONST sz value => .ok [⟨.const, sz, value⟩]
  | .DENSE_CONST sz value => .ok [⟨.const, sz, value⟩]
  | .SPARSE_CONST sz value => .ok [⟨.const, sz, value⟩]
  | .SUM _ args => sum_coeffs args
  | .NEG _ a => neg_coeffs a
  | .MUL sz l r => mul_coeffs sz l r
  | .SUM_ENTRIES _ a => sum_entries_coeffs a
  | .INDEX sz key a => index_coeffs sz key a
  | .TRANSPOSE _ a => transpose_coeffs a
  | .UNKNOWN _ => .error .unsupportedOperator
termination_by n => (sizeOf n, 0)

/-- sum_coeffs: concatenates the coefficients of the args in order. -/
def sum_coeffs : List LinOp → Except CompileError (List Coeff)
  | [] => .ok []
  | a :: rest => do
    let c ← get_coefficients a
    let cs ← sum_coeffs rest
    .ok (c ++ cs)
termination_by l => (sizeOf l, 1)

/-- neg_coeffs: negates every block, identifiers and sizes unchanged. -/
def neg_coeffs (a : LinOp) : Except CompileError (List Coeff) := do
  let coeffs ← get_coefficients a
  .ok (coeffs.map fun t => ⟨t.id, t.size, negMat t.block⟩)
termination_by (sizeOf a, 1)

/-- mul_coeffs: compiles both children then runs the accumulation loop with
cols taken from the MUL node's size. -/
def mul_coeffs (sz : ℕ × ℕ) (l r : LinOp) : Except CompileError (List Coeff) := do
  let lh ← get_coefficients l
  let rh ← get_coefficients r
  mulLoop sz.2 lh rh
termination_by (sizeOf l + sizeOf r, 1)
decreasing_by
  · have h : 1 ≤ sizeOf r := by cases r <;> simp_arith
    exact Prod.Lex.left _ _ (by omega)
  · have h : 1 ≤ sizeOf l := by cases l <;> simp_arith
    exact Prod.Lex.left _ _ (by omega)

/-- sum_entries_coeffs: the constant triple becomes the (1,1) total, every
variable triple's block is summed over axis 0. -/
def sum_entries_coeffs (a : LinOp) : Except CompileError (List Coeff) := do
  let coeffs ← get_coefficients a
  .ok (coeffs.map sumEntriesTriple)
termination_by (sizeOf a, 1)

/-- index_coeffs: constants are sliced directly by the key and take the
INDEX node's size; for a variable the column slice (scaled by the row
count) selects stacked column blocks and the row slice is reapplied for
each column with the block offset. -/
def index_coeffs (sz : ℕ × ℕ) (key : Key) (a : LinOp) :
    Except CompileError (List Coeff) := do
  let coeffs ← get_coefficients a
  .ok (coeffs.map fun t =>
    match t.id with
    | .const => ⟨.const, sz, matIndex t.block key⟩
    | .var v =>
      let rc := if t.size = (1, 1) then a.size else (a.size.1, t.size.2)
      let b1 := matIndex t.block (scale_slice key.2 rc.1, fullSlice)
      let b2 := (List.range rc.2).foldl
        (fun b col => matIndex b (offset_slice key.1 (col * rc.1), fullSlice)) b1
      ⟨.var v, t.size, b2⟩)
termination_by (sizeOf a, 1)

/-- transpose_coeffs: asserts the child compiled to exactly one triple,
discards its block, and returns the vec-transpose permutation built from
the triple's shape. -/
def transpose_coeffs (a : LinOp) : Except CompileError (List Coeff) := do
  let coeffs ← get_coefficients a
  match coeffs with
  | [t] => .ok [⟨t.id, t.size, transposePerm t.size.1 t.size.2⟩]
  | _ => .error .arityMismatch
termination_by (sizeOf a, 1)

end

/-- Whether a node's kind is one of the eleven recognized kinds. -/
def recognized : LinOp → Bool
  | .UNKNOWN _ => false
  | _ => true

/-- The case each recognized kind dispatches to (UNKNOWN has no case and is
mapped to the error it raises). -/
def dispatchCase : LinOp → Except CompileError (List Coeff)
  | .VARIABLE id sz => .ok [⟨.var id, sz, spEye (sz.1 * sz.2)⟩]
  | .PARAM sz value => .ok [⟨.const, sz, value⟩]
  | .SCALAR_CONST sz value => .ok [⟨.const, sz, value⟩]
  | .DENSE_CONST sz value => .ok [⟨.const, sz, value⟩]
  | .SPARSE_CONST sz value => .ok [⟨.const, sz, value⟩]
  | .SUM _ args => sum_coeffs args
  | .NEG _ a => neg_coeffs a
  | .MUL sz l r => mul_coeffs sz l r
  | .SUM_ENTRIES _ a => sum_entries_coeffs a
  | .INDEX sz key a => index_coeffs sz key a
  | .TRANSPOSE _ a => transpose_coeffs a
  | .UNKNOWN _ => .error .unsupportedOperator

mutual

/-- Direct evaluation of a node under an assignment of matrix values to
variable identifiers.  The result always carries the node's declared size.
MUL follows the promotion convention of the operator tree: a (1,1) side
against a non (1,1) side multiplies as a scalar, otherwise it is the matrix
product with the left operand's column count as inner dimension. -/
def eval (σ : ℕ → Mat) : LinOp → Mat
  | .VARIABLE id sz => ⟨sz.1, sz.2, fun i j => (σ id).entry i j⟩
  | .PARAM sz v => ⟨sz.1, sz.2, v.entry⟩
  | .SCALAR_CONST sz v => ⟨sz.1, sz.2, v.entry⟩
  | .DENSE_CONST sz v => ⟨sz.1, sz.2, v.entry⟩
  | .SPARSE_CONST sz v => ⟨sz.1, sz.2, v.entry⟩
  | .SUM sz args => ⟨sz.1, sz.2, fun i j => evalArgsSum σ args i j⟩
  | .NEG sz a => ⟨sz.1, sz.2, fun i j => -((eval σ a).entry i j)⟩
  | .MUL sz l r =>
    ⟨sz.1, sz.2, fun i j =>
      if l.size = (1, 1) ∧ r.size ≠ (1, 1) then
        (eval σ l).entry 0 0 * (eval σ r).entry i j
      else if r.size = (1, 1) ∧ l.size ≠ (1, 1) then
        (eval σ l).entry i j * (eval σ r).entry 0 0
      else
        ∑ t ∈ Finset.range l.size.2, (eval σ l).entry i t * (eval σ r).entry t j⟩
  | .SUM_ENTRIES sz a =>
    ⟨sz.1, sz.2, fun _ _ =>
      ∑ i ∈ Finset.range a.size.1, ∑ j ∈ Finset.range a.size.2, (eval σ a).entry i j⟩
  | .INDEX sz key a => ⟨sz.1, sz.2, (matIndex (eval σ a) key).entry⟩
  | .TRANSPOSE sz a => ⟨sz.1, sz.2, fun i j => (eval σ a).entry j i⟩
  | .UNKNOWN sz => ⟨sz.1, sz.2, fun _ _ => 0⟩
termination_by n => (sizeOf n, 0)

/-- Pointwise sum of the evaluations of a list of nodes. -/
def evalArgsSum (σ : ℕ → Mat) : List LinOp → ℕ → ℕ → ℚ
  | [], _, _ => 0
  | a :: rest, i, j => (eval σ a).entry i j + evalArgsSum σ rest i j
termination_by l => (sizeOf l, 1)

end

/-- The additive contribution of one triple at row i of the vectorized
output: constants contribute their flattened block, a variable triple
contributes row i of block times vec(assigned value). -/
def contrib (σ : ℕ → Mat) (t : Coeff) (i : ℕ) : ℚ :=
  match t.id with
  | .const => (flatten t.block).entry i 0
  | .var v => ∑ j ∈ Finset.range t.block.cols, t.block.entry i j * (flatten (σ v)).entry j 0

/-- The reconstruction of row i of the vectorized output from a triple
list: the sum of the contributions. -/
def recon (σ : ℕ → Mat) (cs : List Coeff) (i : ℕ) : ℚ :=
  (cs.map fun t => contrib σ t i).sum

/-- Elementwise equality of matrices: same dimensions and the same entries
inside them. -/
def MatEqDim (A B : Mat) : Prop :=
  A.rows = B.rows ∧ A.cols = B.cols ∧
    ∀ i < A.rows, ∀ j < A.cols, A.entry i j = B.entry i j

instance (A B : Mat) : Decidable (MatEqDim A B) := by
  unfold MatEqDim; infer_instance

/-- The (2,2) dense constant [[1,2],[3,4]] used by the concrete product
example. -/
def c6mat : Mat := ⟨2, 2, fun i j =>
  if i = 0 ∧ j = 0 then 1 else if i = 0 ∧ j = 1 then 2
  else if i = 1 ∧ j = 0 then 3 else if i = 1 ∧ j = 1 then 4 else 0⟩

/-- The PRODUCT(c, x) node of the concrete product example: x a (2,1)
variable, c the dense [[1,2],[3,4]], node shape (2,1). -/
def prodNode : LinOp := .MUL (2, 1) (.DENSE_CONST (2, 2) c6mat) (.VARIABLE 5 (2, 1))

/-- A bare (2,2) variable. -/
def v22 : LinOp := .VARIABLE 0 (2, 2)

/-- TRANSPOSE(TRANSPOSE(v)) over the bare (2,2) variable. -/
def tt22 : LinOp := .TRANSPOSE (2, 2) (.TRANSPOSE (2, 2) v22)

/-- The SUM of two copies of the dense constant, used as a diverging MUL
left operand. -/
def sum4 : LinOp := .SUM (2, 2) [.DENSE_CONST (2, 2) c6mat, .DENSE_CONST (2, 2) c6mat]

/-- The PRODUCT node whose left child compiles to two triples. -/
def mulDiverges : LinOp := .MUL (2, 1) sum4 (.VARIABLE 1 (2, 1))

/-- A concrete assignment putting the single 1 at entry (0, 1) of every
(2,2) variable. -/
def sigmaC1 : ℕ → Mat := fun _ => ⟨2, 2, fun i j => if i = 0 ∧ j = 1 then 1 else 0⟩

/-- An assignment conforms to a shape context when every variable's value
has the declared dimensions. -/
def Conforms (Γ : ℕ → ℕ × ℕ) (σ : ℕ → Mat) : Prop :=
  ∀ v, (σ v).rows = (Γ v).1 ∧ (σ v).cols = (Γ v).2

/-- Dimension discipline of a triple emitted for a node of size sz: a
constant block carries the node's shape; a variable triple records the
variable's declared shape and its block maps the flattened variable to the
flattened node output. -/
def CoeffOK (Γ : ℕ → ℕ × ℕ) (sz : ℕ × ℕ) (t : Coeff) : Prop :=
  match t.id with
  | .const => t.block.rows = sz.1 ∧ t.block.cols = sz.2
  | .var v => t.size = Γ v ∧ t.block.rows = sz.1 * sz.2 ∧
      t.block.cols = (Γ v).1 * (Γ v).2

/-- The left child of a PRODUCT compiles to exactly one constant triple. -/
def constSingle (l : LinOp) : Prop :=
  ∃ szC C, get_coefficients l = .ok [⟨.const, szC, C⟩]

/-- No variable triple of the compiled node records the promoted shape
(1,1); needed for the block-diagonal branch of PRODUCT to be taken. -/
def noPromotedVarTriples (r : LinOp) : Prop :=
  ∀ cs, get_coefficients r = .ok cs → ∀ t ∈ cs, ∀ v, t.id = .var v → t.size ≠ (1, 1)

/-- Every triple of the compiled node is a variable triple of recorded
shape (1,1); the supported shape of a scalar right operand of PRODUCT. -/
def allScalarVarTriples (r : LinOp) : Prop :=
  ∀ cs, get_coefficients r = .ok cs → ∀ t ∈ cs, t.id ≠ .const ∧ t.size = (1, 1)

/-- Well-formed operator trees: shapes are consistent with children under
each operator's rule, every TRANSPOSE child is a bare variable, every INDEX
key is the full range, and every PRODUCT's left child compiles to a single
constant triple with the shape side conditions under which the source's
combination rules express the product. -/
inductive WF (Γ : ℕ → ℕ × ℕ) : LinOp → Prop where
  | var (id r c : ℕ) : 0 < r → 0 < c → Γ id = (r, c) → WF Γ (.VARIABLE id (r, c))
  | param (sz : ℕ × ℕ) (val : Mat) : 0 < sz.1 → 0 < sz.2 →
      val.rows = sz.1 → val.cols = sz.2 → WF Γ (.PARAM sz val)
  | sconst (sz : ℕ × ℕ) (val : Mat) : 0 < sz.1 → 0 < sz.2 →
      val.rows = sz.1 → val.cols = sz.2 → WF Γ (.SCALAR_CONST sz val)
  | dconst (sz : ℕ × ℕ) (val : Mat) : 0 < sz.1 → 0 < sz.2 →
      val.rows = sz.1 → val.cols = sz.2 → WF Γ (.DENSE_CONST sz val)
  | spconst (sz : ℕ × ℕ) (val : Mat) : 0 < sz.1 → 0 < sz.2 →
      val.rows = sz.1 → val.cols = sz.2 → WF Γ (.SPARSE_CONST sz val)
  | sum (sz : ℕ × ℕ) (args : List LinOp) : 0 < sz.1 → 0 < sz.2 →
      (∀ a ∈ args, a.size = sz) → (∀ a ∈ args, WF Γ a) → WF Γ (.SUM sz args)
  | neg (sz : ℕ × ℕ) (a : LinOp) : a.size = sz → WF Γ a → WF Γ (.NEG sz a)
  | sumEntries (a : LinOp) : WF Γ a → WF Γ (.SUM_ENTRIES (1, 1) a)
  | index (sz : ℕ × ℕ) (a : LinOp) : sz = a.size → WF Γ a →
      WF Γ (.INDEX sz (fullSlice, fullSlice) a)
  | transpose (id r c : ℕ) : WF Γ (.VARIABLE id (r, c)) →
      WF Γ (.TRANSPOSE (c, r) (.VARIABLE id (r, c)))
  | mulMat (m k n : ℕ) (l r : LinOp) :
      l.size = (m, k) → r.size = (k, n) → constSingle l →
      ((m = 1 ∧ k = 1) ∨ n = 1 ∨ noPromotedVarTriples r) →
      WF Γ l → WF Γ r → WF Γ (.MUL (m, n) l r)
  | mulScalarLeft (l r : LinOp) :
      l.size = (1, 1) → r.size ≠ (1, 1) → constSingle l →
      WF Γ l → WF Γ r → WF Γ (.MUL r.size l r)
  | mulScalarRight (l r : LinOp) :
      l.size ≠ (1, 1) → r.size = (1, 1) →
      (∃ szC C, get_coefficients l = .ok [⟨.const, szC, C⟩] ∧ szC ≠ (1, 1)) →
      allScalarVarTriples r →
      WF Γ l → WF Γ r → WF Γ (.MUL l.size l r)

/-- The aliased traversal never terminates: iterating a list while appending
one element per element read keeps the cursor strictly inside the list, so
every finite fuel is exhausted.  This justifies modelling the second and
later outer iterations of mul_coeffs' loop as nontermination whenever the
live list is nonempty. -/
theorem iterAppend_spin (f : Coeff → Coeff) :
    ∀ (fuel : ℕ) (live : List Coeff) (i : ℕ), i < live.length →
      iterAppend f fuel live i = none := by
  intro fuel
  induction fuel with
  | zero => intro live i _; rfl
  | succ n ih =>
    intro live i h
    simp only [iterAppend, h, dif_pos]
    exact ih _ _ (by simp; omega)

/-- Iterating an empty list terminates at once with the empty list, which is
why a multi-triple left operand with an empty right list still returns. -/
theorem iterAppend_empty (f : Coeff → Coeff) (fuel : ℕ) :
    iterAppend f (fuel + 1) [] 0 = some [] := by
  simp [iterAppend]

/-- C6: compiling PRODUCT(c, x) with x a (2,1) variable and c the dense
constant [[1,2],[3,4]] returns exactly one triple, with x's identifier,
shape (2,1), and a block elementwise equal to c itself. -/
theorem C6_product_concrete :
    get_coefficients prodNode = .ok [⟨.var 5, (2, 1), matMul c6mat (spEye 2)⟩] ∧
    MatEqDim (matMul c6mat (spEye 2)) c6mat := by
  constructor
  · simp [prodNode, get_coefficients, mul_coeffs, mulLoop, mulPair, pyMulConst, isScalar,
      c6mat, bind, Except.bind]
  · refine ⟨rfl, rfl, fun i hi j hj => ?_⟩
    simp only [matMul, c6mat, spEye] at hi hj ⊢
    interval_cases i <;> interval_cases j <;> norm_num [Finset.sum_range_succ]

/-- C3: compiling TRANSPOSE(TRANSPOSE(v)) for the (2,2) variable v yields
the vec-transpose permutation as its block, not the identity that compiling
v directly yields: the involution property the spec states fails because
transpose_coeffs discards the child's block and rebuilds the permutation
from the un-transposed recorded shape. -/
theorem C3_double_transpose_eval :
    get_coefficients tt22 = .ok [⟨.var 0, (2, 2), transposePerm 2 2⟩] ∧
    get_coefficients v22 = .ok [⟨.var 0, (2, 2), spEye (2 * 2)⟩] ∧
    ¬ MatEqDim (transposePerm 2 2) (spEye (2 * 2)) := by
  refine ⟨?_, ?_, ?_⟩
  · simp [tt22, v22, get_coefficients, transpose_coeffs, bind, Except.bind]
  · simp [v22, get_coefficients]
  · intro h
    have := h.2.2 1 (by norm_num [transposePerm]) 2 (by norm_num [transposePerm])
    norm_num [transposePerm, spEye] at this

/-- C10: the TRANSPOSE output depends only on the identifier and shape of
the child's single triple; the child's coefficient block is discarded, so
two children compiling to the same identifier and shape but different
blocks yield identical TRANSPOSE output. -/
theorem C10_transpose_ignores_block (sz : ℕ × ℕ) (c1 c2 : LinOp) (id : CoeffId)
    (tsz : ℕ × ℕ) (b1 b2 : Mat)
    (h1 : get_coefficients c1 = .ok [⟨id, tsz, b1⟩])
    (h2 : get_coefficients c2 = .ok [⟨id, tsz, b2⟩]) :
    get_coefficients (.TRANSPOSE sz c1) = get_coefficients (.TRANSPOSE sz c2) := by
  simp [get_coefficients, transpose_coeffs, h1, h2, bind, Except.bind]

/-- Witness for C10: NEGATE(v) and v compile to triples agreeing on
identifier and shape but with different blocks, and their transposes
compile identically. -/
theorem C10_transpose_ignores_block_witness :
    get_coefficients (.TRANSPOSE (2, 2) (.NEG (2, 2) (.VARIABLE 0 (2, 2)))) =
      get_coefficients (.TRANSPOSE (2, 2) (.VARIABLE 0 (2, 2))) :=
  C10_transpose_ignores_block (2, 2) _ _ (.var 0) (2, 2)
    (negMat (spEye (2 * 2))) (spEye (2 * 2))
    (by simp [get_coefficients, neg_coeffs, bind, Except.bind])
    (by simp [get_coefficients])

/-- C9: the dispatcher raises the unsupported operator error exactly on
nodes of unrecognized kind; every node of a recognized kind reaches its
corresponding case. -/
theorem C9_dispatch (n : LinOp) :
    (recognized n = false → get_coefficients n = .error .unsupportedOperator) ∧
    (recognized n = true → get_coefficients n = dispatchCase n) := by
  constructor
  · intro h; cases n <;> simp_all [recognized, get_coefficients]
  · intro h; cases n <;> simp_all [recognized, get_coefficients, dispatchCase]

/-- Witness for C9 at an unrecognized node and at a recognized node. -/
theorem C9_dispatch_witness :
    (get_coefficients (.UNKNOWN (2, 2)) = .error .unsupportedOperator) ∧
    (get_coefficients (.VARIABLE 0 (2, 2)) = dispatchCase (.VARIABLE 0 (2, 2))) :=
  ⟨(C9_dispatch (.UNKNOWN (2, 2))).1 rfl, (C9_dispatch (.VARIABLE 0 (2, 2))).2 rfl⟩

/-- The defining condition of the transpose permutation block is equivalent
to the existence of a (row, col) decomposition of its indices. -/
theorem transposePerm_cond_iff (r c i j : ℕ) :
    (i < r * c ∧ j = (i % c) * r + i / c) ↔
      (∃ row col, row < r ∧ col < c ∧ i = row * c + col ∧ j = col * r + row) := by
  constructor
  · rintro ⟨hi, rfl⟩
    have hc : 0 < c := by
      rcases Nat.eq_zero_or_pos c with h | h
      · subst h; simp at hi
      · exact h
    refine ⟨i / c, i % c, ?_, Nat.mod_lt _ hc, ?_, rfl⟩
    · exact (Nat.div_lt_iff_lt_mul hc).mpr hi
    · calc i = c * (i / c) + i % c := (Nat.div_add_mod i c).symm
        _ = i / c * c + i % c := by ring
  · rintro ⟨row, col, hr, hcol, rfl, rfl⟩
    have hc : 0 < c := Nat.lt_of_le_of_lt (Nat.zero_le col) hcol
    have hlt : row * c + col < r * c := by
      calc row * c + col < row * c + c := by omega
        _ = (row + 1) * c := by ring
        _ ≤ r * c := Nat.mul_le_mul_right c (Nat.succ_le_of_lt hr)
    have hmod : (row * c + col) % c = col := by
      rw [Nat.mul_comm row c, Nat.mul_add_mod, Nat.mod_eq_of_lt hcol]
    have hdiv : (row * c + col) / c = row := by
      rw [Nat.mul_comm row c, Nat.mul_add_div hc, Nat.div_eq_of_lt hcol, Nat.add_zero]
    exact ⟨hlt, by rw [hmod, hdiv]⟩

/-- C2 amended: for a TRANSPOSE node whose child compiles to one triple of
shape (rows, cols), the returned block is (rows cols) by (rows cols) with
entry 1 exactly at the positions (row*cols + col, col*rows + row) — the
spec's formula has the two coordinates swapped. -/
theorem C2_transpose_block (sz : ℕ × ℕ) (a : LinOp) (id : CoeffId) (tsz : ℕ × ℕ)
    (b : Mat) (h : get_coefficients a = .ok [⟨id, tsz, b⟩]) :
    get_coefficients (.TRANSPOSE sz a) = .ok [⟨id, tsz, transposePerm tsz.1 tsz.2⟩] ∧
    (transposePerm tsz.1 tsz.2).rows = tsz.1 * tsz.2 ∧
    (transposePerm tsz.1 tsz.2).cols = tsz.1 * tsz.2 ∧
    (∀ row col, row < tsz.1 → col < tsz.2 →
      (transposePerm tsz.1 tsz.2).entry (row * tsz.2 + col) (col * tsz.1 + row) = 1) ∧
    (∀ i j, (¬ ∃ row col, row < tsz.1 ∧ col < tsz.2 ∧
        i = row * tsz.2 + col ∧ j = col * tsz.1 + row) →
      (transposePerm tsz.1 tsz.2).entry i j = 0) := by
  refine ⟨?_, rfl, rfl, fun row col hr hc => ?_, fun i j hno => ?_⟩
  · simp [get_coefficients, transpose_coeffs, h, bind, Except.bind]
  · have := (transposePerm_cond_iff tsz.1 tsz.2 (row * tsz.2 + col) (col * tsz.1 + row)).mpr
      ⟨row, col, hr, hc, rfl, rfl⟩
    simp only [transposePerm]
    rw [if_pos this]
  · simp only [transposePerm]
    rw [if_neg (fun hcond => hno ((transposePerm_cond_iff tsz.1 tsz.2 i j).mp hcond))]

/-- Witness for C2 at the transpose of a bare (2,3) variable. -/
theorem C2_transpose_block_witness :
    get_coefficients (.TRANSPOSE (3, 2) (.VARIABLE 8 (2, 3))) =
      .ok [⟨.var 8, (2, 3), transposePerm 2 3⟩] ∧
    (transposePerm 2 3).rows = 2 * 3 ∧
    (transposePerm 2 3).cols = 2 * 3 ∧
    (∀ row col, row < 2 → col < 3 →
      (transposePerm 2 3).entry (row * 3 + col) (col * 2 + row) = 1) ∧
    (∀ i j, (¬ ∃ row col, row < 2 ∧ col < 3 ∧ i = row * 3 + col ∧ j = col * 2 + row) →
      (transposePerm 2 3).entry i j = 0) :=
  C2_transpose_block (3, 2) (.VARIABLE 8 (2, 3)) (.var 8) (2, 3) (spEye (2 * 3))
    (by simp [get_coefficients])

/-- C2 counterexample: for a child of shape (rows, cols) = (2, 3) the
claim's formula puts a 1 at position (col*rows + row, row*cols + col) =
(2, 1) for row 0 and col 1, but the compiled block is 0 there (the 1 sits
at the transposed position). -/
theorem C2_counterexample :
    get_coefficients (.TRANSPOSE (3, 2) (.VARIABLE 7 (2, 3))) =
      .ok [⟨.var 7, (2, 3), transposePerm 2 3⟩] ∧
    (transposePerm 2 3).entry 2 1 = 0 := by
  constructor
  · simp [get_coefficients, transpose_coeffs, bind, Except.bind]
  · norm_num [transposePerm]

/-- C7: when every child of a SUM node compiles to a triple list, the SUM
node compiles to exactly the concatenation of those lists in child order,
nothing dropped, merged or modified. -/
theorem C7_sum_concat (sz : ℕ × ℕ) (args : List LinOp) (css : List (List Coeff))
    (h : List.Forall₂ (fun a cs => get_coefficients a = .ok cs) args css) :
    get_coefficients (.SUM sz args) = .ok css.flatten := by
  rw [show get_coefficients (.SUM sz args) = sum_coeffs args from by simp [get_coefficients]]
  induction h with
  | nil => simp [sum_coeffs]
  | cons ha _ ih => rw [sum_coeffs]; simp [ha, ih, bind, Except.bind]

/-- Witness for C7 at a SUM of two variables. -/
theorem C7_sum_concat_witness :
    get_coefficients (.SUM (2, 2) [.VARIABLE 1 (2, 2), .VARIABLE 2 (2, 2)]) =
      .ok (([[⟨.var 1, (2, 2), spEye (2 * 2)⟩], [⟨.var 2, (2, 2), spEye (2 * 2)⟩]] :
        List (List Coeff)).flatten) :=
  C7_sum_concat (2, 2) [.VARIABLE 1 (2, 2), .VARIABLE 2 (2, 2)]
    [[⟨.var 1, (2, 2), spEye (2 * 2)⟩], [⟨.var 2, (2, 2), spEye (2 * 2)⟩]]
    (.cons (by simp [get_coefficients]) (.cons (by simp [get_coefficients]) .nil))

/-- C5: SUM_ENTRIES maps each child triple as the claim states: the
constant triple becomes shape (1,1) holding the scalar total of its block;
each variable triple keeps identifier and shape and its block becomes the
sum over the row axis. -/
theorem C5_sum_entries (sz : ℕ × ℕ) (a : LinOp) (cs : List Coeff)
    (h : get_coefficients a = .ok cs) :
    get_coefficients (.SUM_ENTRIES sz a) = .ok (cs.map sumEntriesTriple) ∧
    List.Forall₂ (fun t t' : Coeff =>
      (t.id = .const → t'.id = .const ∧ t'.size = (1, 1) ∧ t'.block.rows = 1 ∧
        t'.block.cols = 1 ∧ t'.block.entry 0 0 =
          ∑ i ∈ Finset.range t.block.rows, ∑ j ∈ Finset.range t.block.cols,
            t.block.entry i j) ∧
      (∀ v, t.id = .var v → t'.id = .var v ∧ t'.size = t.size ∧ t'.block.rows = 1 ∧
        t'.block.cols = t.block.cols ∧ ∀ j, t'.block.entry 0 j =
          ∑ i ∈ Finset.range t.block.rows, t.block.entry i j))
      cs (cs.map sumEntriesTriple) := by
  refine ⟨by simp [get_coefficients, sum_entries_coeffs, h, bind, Except.bind], ?_⟩
  clear h
  induction cs with
  | nil => exact .nil
  | cons t rest ih =>
    refine List.Forall₂.cons ⟨fun hconst => ?_, fun v hv => ?_⟩ ih
    · simp [sumEntriesTriple, hconst, scalarMat, matTotal, rowSum]
    · simp [sumEntriesTriple, hv, scalarMat, matTotal, rowSum]

/-- Witness for C5 at SUM_ENTRIES over a bare (2,2) variable. -/
theorem C5_sum_entries_witness :
    get_coefficients (.SUM_ENTRIES (1, 1) (.VARIABLE 3 (2, 2))) =
      .ok ([⟨.var 3, (2, 2), spEye (2 * 2)⟩].map sumEntriesTriple) ∧
    List.Forall₂ (fun t t' : Coeff =>
      (t.id = .const → t'.id = .const ∧ t'.size = (1, 1) ∧ t'.block.rows = 1 ∧
        t'.block.cols = 1 ∧ t'.block.entry 0 0 =
          ∑ i ∈ Finset.range t.block.rows, ∑ j ∈ Finset.range t.block.cols,
            t.block.entry i j) ∧
      (∀ v, t.id = .var v → t'.id = .var v ∧ t'.size = t.size ∧ t'.block.rows = 1 ∧
        t'.block.cols = t.block.cols ∧ ∀ j, t'.block.entry 0 j =
          ∑ i ∈ Finset.range t.block.rows, t.block.entry i j))
      [⟨.var 3, (2, 2), spEye (2 * 2)⟩]
      ([⟨.var 3, (2, 2), spEye (2 * 2)⟩].map sumEntriesTriple) :=
  C5_sum_entries (1, 1) (.VARIABLE 3 (2, 2)) [⟨.var 3, (2, 2), spEye (2 * 2)⟩]
    (by simp [get_coefficients])

/-- C4 amended: with a single left triple the MUL loop returns one triple
per right triple (so 1 times the right length), keeping the right triple's
identifier and promoted shape; with two or more left triples and a
nonempty right list the aliased accumulation loop never terminates
(iterAppend_spin), surfaced here as the nontermination error. -/
theorem C4_mul_cross :
    (∀ (sz : ℕ × ℕ) (l r : LinOp) (lt : Coeff) (rs : List Coeff),
      get_coefficients l = .ok [lt] → get_coefficients r = .ok rs →
      get_coefficients (.MUL sz l r) = .ok (rs.map (mulPair sz.2 lt)) ∧
      (rs.map (mulPair sz.2 lt)).length = 1 * rs.length ∧
      ∀ t ∈ rs, (mulPair sz.2 lt t).id = t.id ∧ (mulPair sz.2 lt t).size = t.size) ∧
    (∀ (sz : ℕ × ℕ) (l r : LinOp) (lt1 lt2 : Coeff) (lts : List Coeff)
      (rt : Coeff) (rts : List Coeff),
      get_coefficients l = .ok (lt1 :: lt2 :: lts) →
      get_coefficients r = .ok (rt :: rts) →
      get_coefficients (.MUL sz l r) = .error .nontermination) := by
  constructor
  · intro sz l r lt rs h1 h2
    refine ⟨by simp [get_coefficients, mul_coeffs, h1, h2, mulLoop, bind, Except.bind], ?_, ?_⟩
    · simp
    · intro t _
      simp [mulPair]
  · intro sz l r lt1 lt2 lts rt rts h1 h2
    simp [get_coefficients, mul_coeffs, h1, h2, mulLoop, bind, Except.bind]

/-- Witness for C4: a concrete single-left-triple product and a concrete
diverging product. -/
theorem C4_mul_cross_witness :
    (get_coefficients (.MUL (2, 1) (.DENSE_CONST (2, 2) c6mat) (.VARIABLE 6 (2, 1))) =
      .ok (([⟨.var 6, (2, 1), spEye (2 * 1)⟩] : List Coeff).map
        (mulPair 1 ⟨.const, (2, 2), c6mat⟩)) ∧
      (([⟨.var 6, (2, 1), spEye (2 * 1)⟩] : List Coeff).map
        (mulPair 1 ⟨.const, (2, 2), c6mat⟩)).length =
        1 * ([⟨.var 6, (2, 1), spEye (2 * 1)⟩] : List Coeff).length ∧
      ∀ t ∈ ([⟨.var 6, (2, 1), spEye (2 * 1)⟩] : List Coeff),
        (mulPair 1 ⟨.const, (2, 2), c6mat⟩ t).id = t.id ∧
        (mulPair 1 ⟨.const, (2, 2), c6mat⟩ t).size = t.size) ∧
    get_coefficients (.MUL (2, 1)
      (.SUM (2, 2) [.DENSE_CONST (2, 2) c6mat, .DENSE_CONST (2, 2) c6mat])
      (.VARIABLE 6 (2, 1))) = .error .nontermination :=
  ⟨C4_mul_cross.1 (2, 1) (.DENSE_CONST (2, 2) c6mat) (.VARIABLE 6 (2, 1))
      ⟨.const, (2, 2), c6mat⟩ [⟨.var 6, (2, 1), spEye (2 * 1)⟩]
      (by simp [get_coefficients]) (by simp [get_coefficients]),
    C4_mul_cross.2 (2, 1)
      (.SUM (2, 2) [.DENSE_CONST (2, 2) c6mat, .DENSE_CONST (2, 2) c6mat])
      (.VARIABLE 6 (2, 1)) ⟨.const, (2, 2), c6mat⟩ ⟨.const, (2, 2), c6mat⟩ []
      ⟨.var 6, (2, 1), spEye (2 * 1)⟩ []
      (by simp [get_coefficients, sum_coeffs, bind, Except.bind])
      (by simp [get_coefficients])⟩

/-- C4 counterexample: a PRODUCT whose left child compiles to two triples
and whose right child compiles to one triple does not return the claimed
two-element cross product: the accumulation loop re-reads the list it
appends to and never terminates. -/
theorem C4_counterexample :
    get_coefficients sum4 = .ok [⟨.const, (2, 2), c6mat⟩, ⟨.const, (2, 2), c6mat⟩] ∧
    get_coefficients (.VARIABLE 1 (2, 1)) = .ok [⟨.var 1, (2, 1), spEye (2 * 1)⟩] ∧
    get_coefficients mulDiverges = .error .nontermination := by
  refine ⟨?_, ?_, ?_⟩
  · simp [sum4, get_coefficients, sum_coeffs, bind, Except.bind]
  · simp [get_coefficients]
  · simp [mulDiverges, sum4, get_coefficients, sum_coeffs, mul_coeffs, mulLoop,
      bind, Except.bind]

/-- A full slice scaled by any factor is still the full slice. -/
theorem scale_slice_full (k : ℕ) : scale_slice fullSlice k = fullSlice := rfl

/-- A full slice offset by any amount is still the full slice. -/
theorem offset_slice_full (off : ℕ) : offset_slice fullSlice off = fullSlice := rfl

/-- The full slice selects every index of the dimension. -/
theorem sliceList_full (len : ℕ) : sliceList fullSlice len = List.range len := by
  rw [sliceList]
  apply List.filter_eq_self.mpr
  intro i hi
  simp only [List.mem_range] at hi
  simp [fullSlice, hi, Nat.mod_one]

/-- Reading the range list at an in-bounds position gives the position. -/
theorem range_getD {n i : ℕ} (h : i < n) : (List.range n).getD i 0 = i := by
  rw [List.getD_eq_getElem?_getD, List.getElem?_range h, Option.getD_some]

/-- Elementwise matrix equality is reflexive. -/
theorem matEqDim_refl (A : Mat) : MatEqDim A A :=
  ⟨Eq.refl _, Eq.refl _, fun _ _ _ _ => Eq.refl _⟩

/-- Elementwise matrix equality is transitive. -/
theorem matEqDim_trans {A B C : Mat} (h1 : MatEqDim A B) (h2 : MatEqDim B C) :
    MatEqDim A C := by
  obtain ⟨hr1, hc1, he1⟩ := h1
  obtain ⟨hr2, hc2, he2⟩ := h2
  exact ⟨hr1.trans hr2, hc1.trans hc2, fun i hi j hj =>
    (he1 i hi j hj).trans (he2 i (hr1 ▸ hi) j (hc1 ▸ hj))⟩

/-- Indexing by the pair of full slices is the elementwise identity. -/
theorem matIndex_full (A : Mat) : MatEqDim (matIndex A (fullSlice, fullSlice)) A := by
  refine ⟨?_, ?_, ?_⟩
  · simp [matIndex, sliceList_full]
  · simp [matIndex, sliceList_full]
  · intro i hi j hj
    simp only [matIndex, sliceList_full, List.length_range] at hi hj ⊢
    rw [range_getD hi, range_getD hj]

/-- Folding full-slice row selections over any column list changes nothing
elementwise. -/
theorem foldl_matIndex_full (r : ℕ) (l : List ℕ) (b E : Mat) (h : MatEqDim b E) :
    MatEqDim
      (l.foldl (fun b col => matIndex b (offset_slice fullSlice (col * r), fullSlice)) b)
      E := by
  induction l generalizing b with
  | nil => exact h
  | cons x xs ih =>
    rw [List.foldl_cons, offset_slice_full]
    exact ih _ (matEqDim_trans (matIndex_full b) h)

/-- C8: compiling an INDEX node that selects a variable's full range (full
row and column slices) returns a single triple whose block is elementwise
equal to the identity block that compiling the variable unsliced returns. -/
theorem C8_index_full (sz : ℕ × ℕ) (id r c : ℕ) :
    ∃ B, get_coefficients (.INDEX sz (fullSlice, fullSlice) (.VARIABLE id (r, c))) =
        .ok [⟨.var id, (r, c), B⟩] ∧
      MatEqDim B (spEye (r * c)) ∧
      get_coefficients (.VARIABLE id (r, c)) = .ok [⟨.var id, (r, c), spEye (r * c)⟩] := by
  have hv : get_coefficients (.VARIABLE id (r, c)) =
      .ok [⟨.var id, (r, c), spEye (r * c)⟩] := by
    simp [get_coefficients]
  rw [show get_coefficients (.INDEX sz (fullSlice, fullSlice) (.VARIABLE id (r, c))) =
      index_coeffs sz (fullSlice, fullSlice) (.VARIABLE id (r, c)) from by
    simp [get_coefficients]]
  rw [index_coeffs, hv]
  simp only [bind, Except.bind, List.map_cons, List.map_nil, LinOp.size, ite_self]
  refine ⟨_, Eq.refl _, ?_, trivial⟩
  rw [scale_slice_full]
  exact foldl_matIndex_full r (List.range c) _ _ (matIndex_full _)

/-- C1 counterexample: evaluating TRANSPOSE(TRANSPOSE(v)) for a (2,2)
variable v at the assignment with a single 1 at entry (0,1) gives 0 at
vectorized position 1, while the sum of block times vec over the compiled
triples gives 1: the reconstruction law fails on this node. -/
theorem C1_counterexample :
    get_coefficients tt22 = .ok [⟨.var 0, (2, 2), transposePerm 2 2⟩] ∧
    (flatten (eval sigmaC1 tt22)).entry 1 0 = 0 ∧
    recon sigmaC1 [⟨.var 0, (2, 2), transposePerm 2 2⟩] 1 = 1 := by
  refine ⟨?_, ?_, ?_⟩
  · simp [tt22, v22, get_coefficients, transpose_coeffs, bind, Except.bind]
  · norm_num [tt22, v22, eval, flatten, sigmaC1]
  · norm_num [recon, contrib, transposePerm, flatten, sigmaC1, Finset.sum_range_succ]

/-- Column-major encoding bound: q blocks of width b plus t stays below r
blocks. -/
theorem encode_lt {q b t r : ℕ} (hq : q < r) (ht : t < b) : q * b + t < r * b := by
  calc q * b + t < q * b + b := by omega
    _ = (q + 1) * b := by ring
    _ ≤ r * b := Nat.mul_le_mul_right b (Nat.succ_le_of_lt hq)

/-- Remainder of a column-major encoded index. -/
theorem encode_mod {q b t : ℕ} (ht : t < b) : (q * b + t) % b = t := by
  rw [Nat.mul_comm q b, Nat.mul_add_mod, Nat.mod_eq_of_lt ht]

/-- Quotient of a column-major encoded index. -/
theorem encode_div {q b t : ℕ} (ht : t < b) : (q * b + t) / b = q := by
  have hb : 0 < b := Nat.lt_of_le_of_lt (Nat.zero_le t) ht
  rw [Nat.mul_comm q b, Nat.mul_add_div hb, Nat.div_eq_of_lt ht, Nat.add_zero]

/-- Splitting a sum over an initial segment into two segments. -/
theorem sum_range_add (f : ℕ → ℚ) (m n : ℕ) :
    ∑ i ∈ Finset.range (m + n), f i =
      (∑ i ∈ Finset.range m, f i) + ∑ j ∈ Finset.range n, f (m + j) := by
  induction n with
  | zero => simp
  | succ n ih => rw [Nat.add_succ, Finset.sum_range_succ, ih, Finset.sum_range_succ]; ring

/-- A sum over a product range as a double sum over block and offset. -/
theorem sum_range_mul (f : ℕ → ℚ) (a b : ℕ) :
    ∑ i ∈ Finset.range (a * b), f i =
      ∑ q ∈ Finset.range a, ∑ t ∈ Finset.range b, f (q * b + t) := by
  induction a with
  | zero => simp
  | succ a ih => rw [Nat.succ_mul, sum_range_add, ih, Finset.sum_range_succ]

/-- A sum over a flattened r by c index set as columns of rows. -/
theorem sum_vec_decomp (f : ℕ → ℚ) (r c : ℕ) :
    ∑ i ∈ Finset.range (r * c), f i =
      ∑ col ∈ Finset.range c, ∑ row ∈ Finset.range r, f (col * r + row) := by
  rw [Nat.mul_comm]; exact sum_range_mul f c r

/-- Evaluation always carries the node's declared row count. -/
theorem eval_rows (σ : ℕ → Mat) (n : LinOp) : (eval σ n).rows = n.size.1 := by
  cases n <;> simp [eval, LinOp.size]

/-- Evaluation always carries the node's declared column count. -/
theorem eval_cols (σ : ℕ → Mat) (n : LinOp) : (eval σ n).cols = n.size.2 := by
  cases n <;> simp [eval, LinOp.size]

/-- The entry of the flattened matrix. -/
theorem flatten_entry (A : Mat) (i : ℕ) :
    (flatten A).entry i 0 = A.entry (i % A.rows) (i / A.rows) := rfl

/-- Reconstruction of the empty triple list. -/
theorem recon_nil (σ : ℕ → Mat) (i : ℕ) : recon σ [] i = 0 := rfl

/-- Reconstruction of a cons. -/
theorem recon_cons (σ : ℕ → Mat) (t : Coeff) (cs : List Coeff) (i : ℕ) :
    recon σ (t :: cs) i = contrib σ t i + recon σ cs i := by
  simp [recon]

/-- Reconstruction distributes over concatenation. -/
theorem recon_append (σ : ℕ → Mat) (cs1 cs2 : List Coeff) (i : ℕ) :
    recon σ (cs1 ++ cs2) i = recon σ cs1 i + recon σ cs2 i := by
  simp [recon]

/-- Reconstruction of a mapped list as a mapped sum. -/
theorem recon_map (σ : ℕ → Mat) (f : Coeff → Coeff) (cs : List Coeff) (i : ℕ) :
    recon σ (cs.map f) i = (cs.map fun t => contrib σ (f t) i).sum := by
  simp [recon, List.map_map, Function.comp_def]

/-- Congruence for mapped list sums. -/
theorem list_sum_congr {α : Type} (l : List α) (f g : α → ℚ)
    (h : ∀ x ∈ l, f x = g x) : (l.map f).sum = (l.map g).sum := by
  rw [List.map_congr_left h]

/-- A finite sum of reconstructions as a reconstruction of summed
contributions. -/
theorem finset_sum_recon (σ : ℕ → Mat) (cs : List Coeff) (s : Finset ℕ) :
    ∑ i ∈ s, recon σ cs i = (cs.map fun t => ∑ i ∈ s, contrib σ t i).sum := by
  induction cs with
  | nil => simp [recon]
  | cons t rest ih => simp [recon_cons, Finset.sum_add_distrib, ih]

/-- Swapping a weighted finite sum with a list sum. -/
theorem sum_mul_list_swap (g : ℕ → ℚ) (s : Finset ℕ) (cs : List Coeff)
    (F : Coeff → ℕ → ℚ) :
    ∑ t ∈ s, g t * (cs.map fun T => F T t).sum =
      (cs.map fun T => ∑ t ∈ s, g t * F T t).sum := by
  induction cs with
  | nil => simp
  | cons T rest ih => simp [mul_add, Finset.sum_add_distrib, ih]

/-- Negating a triple's block negates its contribution. -/
theorem contrib_neg (σ : ℕ → Mat) (t : Coeff) (i : ℕ) :
    contrib σ ⟨t.id, t.size, negMat t.block⟩ i = -contrib σ t i := by
  rcases t with ⟨tid, tsz, B⟩
  cases tid <;> simp [contrib, negMat, flatten, neg_mul, Finset.sum_neg_distrib]

/-- Scaling a triple's block scales its contribution. -/
theorem contrib_smul (σ : ℕ → Mat) (cval : ℚ) (tid : CoeffId) (tsz : ℕ × ℕ)
    (B : Mat) (i : ℕ) :
    contrib σ ⟨tid, tsz, smul cval B⟩ i = cval * contrib σ ⟨tid, tsz, B⟩ i := by
  cases tid <;> simp [contrib, smul, flatten, Finset.mul_sum, mul_assoc]

/-- Constant contributions agree on elementwise equal blocks within the
block's index range. -/
theorem contrib_const_eqdim (σ : ℕ → Mat) (sz sz' : ℕ × ℕ) {B B' : Mat}
    (h : MatEqDim B' B) {i : ℕ} (hi : i < B.rows * B.cols) :
    contrib σ ⟨.const, sz, B'⟩ i = contrib σ ⟨.const, sz', B⟩ i := by
  have hr : 0 < B.rows := by
    rcases Nat.eq_zero_or_pos B.rows with h0 | h0
    · rw [h0] at hi; simp at hi
    · exact h0
  obtain ⟨hrw, hcl, hen⟩ := h
  simp only [contrib, flatten, hrw]
  exact hen _ (by rw [hrw]; exact Nat.mod_lt _ hr)
    _ (by rw [hcl]; exact (Nat.div_lt_iff_lt_mul hr).mpr (by rw [Nat.mul_comm B.cols B.rows]; exact hi))

/-- Variable contributions agree on elementwise equal blocks for in-range
output rows. -/
theorem contrib_var_eqdim (σ : ℕ → Mat) (sz : ℕ × ℕ) (v : ℕ) {B B' : Mat}
    (h : MatEqDim B' B) {i : ℕ} (hi : i < B.rows) :
    contrib σ ⟨.var v, sz, B'⟩ i = contrib σ ⟨.var v, sz, B⟩ i := by
  obtain ⟨hrw, hcl, hen⟩ := h
  simp only [contrib]
  rw [hcl]
  exact Finset.sum_congr rfl fun j hj => by
    rw [hen i (by rw [hrw]; exact hi) j (by rw [hcl]; exact Finset.mem_range.mp hj)]

/-- The identity block reproduces the vector. -/
theorem eye_mulvec (n i : ℕ) (hi : i < n) (g : ℕ → ℚ) :
    ∑ j ∈ Finset.range n, (spEye n).entry i j * g j = g i := by
  simp only [spEye, ite_mul, one_mul, zero_mul]
  rw [Finset.sum_ite_eq]
  simp [hi]

/-- The transpose permutation block picks out the transposed position. -/
theorem transposePerm_mulvec (r c i : ℕ) (hi : i < r * c) (g : ℕ → ℚ) :
    ∑ j ∈ Finset.range (r * c), (transposePerm r c).entry i j * g j =
      g ((i % c) * r + i / c) := by
  have hc : 0 < c := by
    rcases Nat.eq_zero_or_pos c with h0 | h0
    · rw [h0] at hi; simp at hi
    · exact h0
  have h2 : i / c < r := by
    rw [Nat.div_lt_iff_lt_mul hc]; exact hi
  have hj0 : (i % c) * r + i / c < r * c := by
    calc (i % c) * r + i / c < c * r := encode_lt (Nat.mod_lt _ hc) h2
      _ = r * c := Nat.mul_comm c r
  simp only [transposePerm, hi, true_and, ite_mul, one_mul, zero_mul]
  rw [Finset.sum_ite_eq']
  simp [hj0]

/-- One row of the block-diagonal replication times a block: only the
diagonal copy matching the row's block index contributes. -/
theorem matMul_blockDiag_entry (n : ℕ) (C B : Mat) {row col : ℕ} (j : ℕ)
    (hrow : row < C.rows) (hcol : col < n) :
    (matMul (blockDiag n C) B).entry (col * C.rows + row) j =
      ∑ t ∈ Finset.range C.cols, C.entry row t * B.entry (col * C.cols + t) j := by
  simp only [matMul, blockDiag]
  rw [sum_range_mul]
  have step : ∀ q ∈ Finset.range n, ∀ t ∈ Finset.range C.cols,
      (if (col * C.rows + row) / C.rows = (q * C.cols + t) / C.cols then
        C.entry ((col * C.rows + row) % C.rows) ((q * C.cols + t) % C.cols) else 0) *
        B.entry (q * C.cols + t) j =
      if col = q then C.entry row t * B.entry (q * C.cols + t) j else 0 := by
    intro q _ t ht
    rw [encode_div hrow, encode_div (Finset.mem_range.mp ht),
      encode_mod hrow, encode_mod (Finset.mem_range.mp ht)]
    split_ifs <;> simp
  rw [Finset.sum_congr rfl fun q hq => Finset.sum_congr rfl fun t ht => step q hq t ht]
  have pull : ∀ q ∈ Finset.range n,
      (∑ t ∈ Finset.range C.cols,
        if col = q then C.entry row t * B.entry (q * C.cols + t) j else 0) =
      if col = q then
        ∑ t ∈ Finset.range C.cols, C.entry row t * B.entry (q * C.cols + t) j
      else 0 := fun q _ => by split_ifs <;> simp
  rw [Finset.sum_congr rfl pull, Finset.sum_ite_eq]
  simp [hcol]

/-- Under the matmul shape discipline, every dispatch branch of the MUL
evaluation agrees with the inner-product formula. -/
theorem eval_mul_matmul (σ : ℕ → Mat) (m k n : ℕ) (l r : LinOp)
    (hl : l.size = (m, k)) (hr : r.size = (k, n)) {row col : ℕ}
    (hrow : row < m) (hcol : col < n) :
    (eval σ (.MUL (m, n) l r)).entry row col =
      ∑ t ∈ Finset.range k, (eval σ l).entry row t * (eval σ r).entry t col := by
  simp only [eval, hl, hr]
  split_ifs with h1 h2
  · obtain ⟨he, _⟩ := h1
    obtain ⟨hm, hk⟩ := Prod.mk.injEq .. ▸ he
    subst hm; subst hk
    have : row = 0 := by omega
    subst this
    simp [Finset.sum_range_one]
  · obtain ⟨he, _⟩ := h2
    obtain ⟨hk, hn⟩ := Prod.mk.injEq .. ▸ he
    subst hk; subst hn
    have : col = 0 := by omega
    subst this
    simp [Finset.sum_range_one]
  · rfl

/-- A constant-only child whose single triple has the child's dimensions
evaluates to its constant block, entrywise. -/
theorem eval_const_entries (σ : ℕ → Mat) (l : LinOp) (szC : ℕ × ℕ) (C : Mat)
    (m k : ℕ) (hl : l.size = (m, k)) (hCr : C.rows = m) (_hCc : C.cols = k)
    (hrec : ∀ i, i < m * k →
      (flatten (eval σ l)).entry i 0 = recon σ [⟨.const, szC, C⟩] i)
    {p q : ℕ} (hp : p < m) (hq : q < k) :
    (eval σ l).entry p q = C.entry p q := by
  have h := hrec (q * m + p) (by rw [Nat.mul_comm m k]; exact encode_lt hq hp)
  rw [flatten_entry, eval_rows, hl] at h
  simp only at h
  rw [encode_mod hp, encode_div hp] at h
  rw [h]
  simp only [recon, List.map_cons, List.map_nil, List.sum_cons, List.sum_nil,
    contrib, flatten, hCr, add_zero]
  rw [encode_mod hp, encode_div hp]

/-- Well-formed nodes have positive dimensions. -/
theorem WF_pos {Γ : ℕ → ℕ × ℕ} {n : LinOp} (h : WF Γ n) :
    0 < n.size.1 ∧ 0 < n.size.2 := by
  induction h with
  | var id r c hr hc _ => exact ⟨hr, hc⟩
  | param sz val h1 h2 _ _ => exact ⟨h1, h2⟩
  | sconst sz val h1 h2 _ _ => exact ⟨h1, h2⟩
  | dconst sz val h1 h2 _ _ => exact ⟨h1, h2⟩
  | spconst sz val h1 h2 _ _ => exact ⟨h1, h2⟩
  | sum sz args h1 h2 _ _ _ => exact ⟨h1, h2⟩
  | neg sz a hsz _ ih => simp only [LinOp.size]; rw [← hsz]; exact ih
  | sumEntries a _ _ => exact ⟨Nat.one_pos, Nat.one_pos⟩
  | index sz a hsz _ ih => simp only [LinOp.size]; rw [hsz]; exact ih
  | transpose id r c _ ih =>
    simp only [LinOp.size] at ih ⊢; exact ⟨ih.2, ih.1⟩
  | mulMat m k n l r hl hr _ _ _ _ ihl ihr =>
    rw [hl] at ihl; rw [hr] at ihr
    simp only [LinOp.size]; exact ⟨ihl.1, ihr.2⟩
  | mulScalarLeft l r _ _ _ _ _ ihl ihr => simp only [LinOp.size]; exact ihr
  | mulScalarRight l r _ _ _ _ _ _ ihl ihr => simp only [LinOp.size]; exact ihl

/-- Negations distribute out of a mapped list sum. -/
theorem list_sum_neg (l : List Coeff) (f : Coeff → ℚ) :
    (l.map fun x => -f x).sum = -(l.map f).sum := by
  induction l with
  | nil => simp
  | cons x xs ih => simp [ih]; ring

/-- A common factor distributes out of a mapped list sum. -/
theorem list_sum_mul (l : List Coeff) (f : Coeff → ℚ) (c : ℚ) :
    (l.map fun x => c * f x).sum = c * (l.map f).sum := by
  induction l with
  | nil => simp
  | cons x xs ih => simp [ih]; ring

/-- The transformed constant triple of SUM_ENTRIES contributes the total of
the flattened contributions of the original triple. -/
theorem contrib_sumEntries_const (σ : ℕ → Mat) (tsz : ℕ × ℕ) (B : Mat) :
    contrib σ (sumEntriesTriple ⟨.const, tsz, B⟩) 0 =
      ∑ idx ∈ Finset.range (B.rows * B.cols), contrib σ ⟨.const, tsz, B⟩ idx := by
  simp only [sumEntriesTriple, contrib, scalarMat, flatten, matTotal]
  rw [sum_vec_decomp]
  rw [Finset.sum_comm]
  exact Finset.sum_congr rfl fun col hcol => Finset.sum_congr rfl fun row hrow => by
    rw [encode_mod (Finset.mem_range.mp hrow), encode_div (Finset.mem_range.mp hrow)]

/-- The transformed variable triple of SUM_ENTRIES contributes the total of
the row contributions of the original triple. -/
theorem contrib_sumEntries_var (σ : ℕ → Mat) (tsz : ℕ × ℕ) (v : ℕ) (B : Mat) :
    contrib σ (sumEntriesTriple ⟨.var v, tsz, B⟩) 0 =
      ∑ idx ∈ Finset.range B.rows, contrib σ ⟨.var v, tsz, B⟩ idx := by
  simp only [sumEntriesTriple, contrib, rowSum]
  rw [Finset.sum_comm]
  exact Finset.sum_congr rfl fun j _ => by rw [Finset.sum_mul]

/-- When the left block is scalar, the loop body scales the right triple's
block and keeps its other fields, preserving the dimension discipline. -/
theorem mulPair_dims_scalar (Γ : ℕ → ℕ × ℕ) (sz : ℕ × ℕ) (cols : ℕ)
    (szC : ℕ × ℕ) (C : Mat) (hs : isScalar C = true) (u : Coeff)
    (hoku : CoeffOK Γ sz u) : CoeffOK Γ sz (mulPair cols ⟨.const, szC, C⟩ u) := by
  rcases u with ⟨uid, usz, uB⟩
  cases uid <;>
    simpa [mulPair, hs, pyMulConst, smul, CoeffOK] using hoku

/-- Dimension discipline of the loop body in the matmul case. -/
theorem mulPair_dims_matmul (Γ : ℕ → ℕ × ℕ) (m k n : ℕ) (szC : ℕ × ℕ) (C : Mat)
    (hCr : C.rows = m) (hCc : C.cols = k) (u : Coeff) (hoku : CoeffOK Γ (k, n) u)
    (hdisj : (m = 1 ∧ k = 1) ∨ n = 1 ∨ (∀ v, u.id = .var v → u.size ≠ (1, 1))) :
    CoeffOK Γ (m, n) (mulPair n ⟨.const, szC, C⟩ u) := by
  rcases u with ⟨uid, usz, uB⟩
  cases uid with
  | const =>
    obtain ⟨h1, h2⟩ := hoku
    have hcond : (isScalar C || ((CoeffId.const : CoeffId) == CoeffId.const) ||
        (n == 1)) = true := by simp
    simp only [mulPair, CoeffOK]
    rw [if_pos hcond]
    by_cases hs : isScalar C
    · have hsc : C.rows = 1 ∧ C.cols = 1 := by
        simpa [isScalar] using hs
      rw [pyMulConst, if_pos hs]
      refine ⟨?_, h2⟩
      show uB.rows = m
      rw [h1]
      show k = m
      rw [← hCr, ← hCc, hsc.1, hsc.2]
    · rw [pyMulConst, if_neg hs]
      exact ⟨hCr, h2⟩
  | var v =>
    obtain ⟨h1, h2, h3⟩ := hoku
    simp only [mulPair, CoeffOK]
    refine ?_
    by_cases hs : isScalar C
    · have hsc : C.rows = 1 ∧ C.cols = 1 := by simpa [isScalar] using hs
      have hm1 : m = 1 := by rw [← hCr, hsc.1]
      have hk1 : k = 1 := by rw [← hCc, hsc.2]
      have hcond : (isScalar C || ((CoeffId.var v : CoeffId) == CoeffId.const) ||
          (n == 1)) = true := by simp [hs]
      rw [if_pos hcond, pyMulConst, if_pos hs]
      refine ⟨h1, ?_, h3⟩
      show uB.rows = m * n
      rw [h2]
      show k * n = m * n
      rw [hm1, hk1]
    · by_cases hn : n = 1
      · have hcond : (isScalar C || ((CoeffId.var v : CoeffId) == CoeffId.const) ||
            (n == 1)) = true := by simp [hn]
        rw [if_pos hcond, pyMulConst, if_neg hs]
        refine ⟨h1, ?_, h3⟩
        show C.rows = m * n
        rw [hCr, hn, Nat.mul_one]
      · have hne : usz ≠ (1, 1) := by
          rcases hdisj with ⟨hm1, hk1⟩ | h | h
          · exact absurd (by simp [isScalar, hCr, hCc, hm1, hk1]) hs
          · exact absurd h hn
          · exact h v (Eq.refl _)
        have hcond : (isScalar C || ((CoeffId.var v : CoeffId) == CoeffId.const) ||
            (n == 1)) = false := by
          simp only [Bool.or_eq_false_iff]
          refine ⟨⟨?_, by simp⟩, by simp [hn]⟩
          cases hb : isScalar C
          · rfl
          · exact absurd hb hs
        rw [if_neg (by simp [hcond]), if_neg (fun hcc => hne hcc.2)]
        refine ⟨h1, ?_, ?_⟩
        · show n * C.rows = m * n
          rw [hCr, Nat.mul_comm n m]
        · show uB.cols = (Γ v).1 * (Γ v).2
          exact h3

/-- Dimension discipline of the loop body in the matrix-times-scalar case. -/
theorem mulPair_dims_scalarRight (Γ : ℕ → ℕ × ℕ) (m k : ℕ) (szC : ℕ × ℕ) (C : Mat)
    (hCr : C.rows = m) (hCc : C.cols = k) (hne : ¬(m = 1 ∧ k = 1))
    (hszC : szC ≠ (1, 1)) (v : ℕ) (B : Mat) (hΓv : ((1 : ℕ), (1 : ℕ)) = Γ v)
    (hBc : B.cols = (Γ v).1 * (Γ v).2) :
    CoeffOK Γ (m, k) (mulPair k ⟨.const, szC, C⟩ ⟨.var v, (1, 1), B⟩) := by
  have hs : isScalar C = false := by
    by_contra hh
    rw [Bool.not_eq_false] at hh
    have hsc : C.rows = 1 ∧ C.cols = 1 := by simpa [isScalar] using hh
    exact hne ⟨by rw [← hCr, hsc.1], by rw [← hCc, hsc.2]⟩
  simp only [mulPair, CoeffOK]
  by_cases hk : k = 1
  · have hcond : (isScalar C || ((CoeffId.var v : CoeffId) == CoeffId.const) ||
        (k == 1)) = true := by simp [hk]
    rw [if_pos hcond, pyMulConst, if_neg (by simp [hs])]
    refine ⟨hΓv, ?_, ?_⟩
    · show C.rows = m * k
      rw [hCr, hk, Nat.mul_one]
    · show B.cols = (Γ v).1 * (Γ v).2
      exact hBc
  · have hcond : (isScalar C || ((CoeffId.var v : CoeffId) == CoeffId.const) ||
        (k == 1)) = false := by simp [hs, hk]
    rw [if_neg (by simp [hcond]), if_pos ⟨hszC, trivial⟩]
    refine ⟨hΓv, ?_, ?_⟩
    · show (flatten C).rows = m * k
      show C.rows * C.cols = m * k
      rw [hCr, hCc]
    · show B.cols = (Γ v).1 * (Γ v).2
      exact hBc

/-- One loop-body output triple of the matmul case contributes, at output
position (row, col), the inner product of the left constant's row with the
right triple's contributions down the corresponding block of positions. -/
theorem mulPair_contrib_matmul (σ : ℕ → Mat) (m k n : ℕ) (szC : ℕ × ℕ) (C : Mat)
    (hCr : C.rows = m) (hCc : C.cols = k) (u : Coeff)
    (hBr : u.id = .const → u.block.rows = k ∧ u.block.cols = n)
    (hBv : ∀ v, u.id = .var v → u.block.rows = k * n)
    (hdisj : (m = 1 ∧ k = 1) ∨ n = 1 ∨ (∀ v, u.id = .var v → u.size ≠ (1, 1)))
    {row col : ℕ} (hrow : row < m) (hcol : col < n) :
    contrib σ (mulPair n ⟨.const, szC, C⟩ u) (col * m + row) =
      ∑ t ∈ Finset.range k, C.entry row t * contrib σ u (col * k + t) := by
  rcases u with ⟨uid, usz, uB⟩
  cases uid with
  | const =>
    obtain ⟨hBr', hBc'⟩ := hBr (Eq.refl _)
    have hR : ∀ t ∈ Finset.range k,
        contrib σ (⟨CoeffId.const, usz, uB⟩ : Coeff) (col * k + t) = uB.entry t col := by
      intro t ht
      simp only [contrib, flatten]
      rw [hBr', encode_mod (Finset.mem_range.mp ht), encode_div (Finset.mem_range.mp ht)]
    rw [Finset.sum_congr rfl fun t ht => by rw [hR t ht]]
    have hcond : (isScalar C || ((CoeffId.const : CoeffId) == CoeffId.const) ||
        (n == 1)) = true := by simp
    simp only [mulPair]
    rw [if_pos hcond]
    by_cases hs : isScalar C
    · have hsc : C.rows = 1 ∧ C.cols = 1 := by simpa [isScalar] using hs
      have hm1 : m = 1 := by rw [← hCr, hsc.1]
      have hk1 : k = 1 := by rw [← hCc, hsc.2]
      subst hm1; subst hk1
      have hrow0 : row = 0 := by omega
      subst hrow0
      rw [pyMulConst, if_pos hs, contrib_smul, Finset.sum_range_one]
      simp only [contrib, flatten]
      rw [hBr']
      rw [encode_mod (by omega : (0 : ℕ) < 1), encode_div (by omega : (0 : ℕ) < 1)]
    · rw [pyMulConst, if_neg hs]
      simp only [contrib, flatten]
      rw [show (matMul C uB).rows = m from hCr]
      rw [encode_mod hrow, encode_div hrow]
      simp only [matMul]
      rw [hCc]
  | var v =>
    have hBr' := hBv v (Eq.refl _)
    by_cases hs : isScalar C
    · have hsc : C.rows = 1 ∧ C.cols = 1 := by simpa [isScalar] using hs
      have hm1 : m = 1 := by rw [← hCr, hsc.1]
      have hk1 : k = 1 := by rw [← hCc, hsc.2]
      subst hm1; subst hk1
      have hrow0 : row = 0 := by omega
      subst hrow0
      simp only [mulPair]
      rw [if_pos (by simp [hs] : (isScalar C ||
        ((CoeffId.var v : CoeffId) == CoeffId.const) || (n == 1)) = true)]
      rw [pyMulConst, if_pos hs, contrib_smul, Finset.sum_range_one]
    · by_cases hn : n = 1
      · have hcol0 : col = 0 := by omega
        subst hcol0
        simp only [mulPair]
        rw [if_pos (by simp [hn] : (isScalar C ||
          ((CoeffId.var v : CoeffId) == CoeffId.const) || (n == 1)) = true)]
        rw [pyMulConst, if_neg hs]
        simp only [contrib, Nat.zero_mul, Nat.zero_add]
        have hc : (matMul C uB).cols = uB.cols := rfl
        rw [hc]
        have hentry : ∀ j, (matMul C uB).entry row j =
            ∑ t ∈ Finset.range k, C.entry row t * uB.entry t j := by
          intro j
          simp only [matMul]
          rw [hCc]
        rw [Finset.sum_congr rfl fun j _ => by rw [hentry j]]
        rw [Finset.sum_congr rfl fun j (_ : j ∈ Finset.range uB.cols) =>
          Finset.sum_mul _ _ _]
        rw [Finset.sum_comm]
        refine Finset.sum_congr rfl fun t _ => ?_
        rw [Finset.mul_sum]
        exact Finset.sum_congr rfl fun j _ => by ring
      · have hne' : usz ≠ (1, 1) := by
          rcases hdisj with ⟨hm1, hk1⟩ | h | h
          · exact absurd (by simp [isScalar, hCr, hCc, hm1, hk1]) hs
          · exact absurd h hn
          · exact h v (Eq.refl _)
        have hcond : (isScalar C || ((CoeffId.var v : CoeffId) == CoeffId.const) ||
            (n == 1)) = false := by
          simp only [Bool.or_eq_false_iff]
          refine ⟨⟨?_, by simp⟩, by simp [hn]⟩
          cases hb : isScalar C
          · rfl
          · exact absurd hb hs
        simp only [mulPair]
        rw [if_neg (by simp [hcond]), if_neg (fun hcc => hne' hcc.2)]
        simp only [contrib]
        have hc : (matMul (blockDiag n C) uB).cols = uB.cols := rfl
        rw [hc]
        have hentry : ∀ j, (matMul (blockDiag n C) uB).entry (col * m + row) j =
            ∑ t ∈ Finset.range k, C.entry row t * uB.entry (col * k + t) j := by
          intro j
          have h := matMul_blockDiag_entry n C uB j (show row < C.rows from hCr ▸ hrow)
            hcol
          rw [hCr, hCc] at h
          exact h
        rw [Finset.sum_congr rfl fun j _ => by rw [hentry j]]
        rw [Finset.sum_congr rfl fun j (_ : j ∈ Finset.range uB.cols) =>
          Finset.sum_mul _ _ _]
        rw [Finset.sum_comm]
        refine Finset.sum_congr rfl fun t _ => ?_
        rw [Finset.mul_sum]
        exact Finset.sum_congr rfl fun j _ => by ring

/-- One loop-body output triple of the matrix-times-scalar case contributes
the flattened constant entry times the scalar triple's contribution. -/
theorem mulPair_contrib_scalarRight (σ : ℕ → Mat) (m k : ℕ) (szC : ℕ × ℕ) (C : Mat)
    (hCr : C.rows = m) (hCc : C.cols = k) (hne : ¬(m = 1 ∧ k = 1))
    (hszC : szC ≠ (1, 1)) (v : ℕ) (B : Mat)
    {u : ℕ} (hu : u < m * k) :
    contrib σ (mulPair k ⟨.const, szC, C⟩ ⟨.var v, (1, 1), B⟩) u =
      (flatten C).entry u 0 * contrib σ (⟨.var v, (1, 1), B⟩ : Coeff) 0 := by
  have hs : isScalar C = false := by
    by_contra hh
    rw [Bool.not_eq_false] at hh
    have hsc : C.rows = 1 ∧ C.cols = 1 := by simpa [isScalar] using hh
    exact hne ⟨by rw [← hCr, hsc.1], by rw [← hCc, hsc.2]⟩
  by_cases hk : k = 1
  · subst hk
    have hum : u < m := by omega
    simp only [mulPair]
    rw [if_pos (by simp : (isScalar C ||
      ((CoeffId.var v : CoeffId) == CoeffId.const) || ((1 : ℕ) == 1)) = true)]
    rw [pyMulConst, if_neg (by simp [hs])]
    simp only [contrib, flatten]
    have hc : (matMul C B).cols = B.cols := rfl
    rw [hc]
    have hentry : ∀ j, (matMul C B).entry u j = C.entry u 0 * B.entry 0 j := by
      intro j
      simp only [matMul]
      rw [hCc, Finset.sum_range_one]
    rw [Finset.sum_congr rfl fun j _ => by rw [hentry j]]
    rw [hCr, Nat.mod_eq_of_lt hum, Nat.div_eq_of_lt hum, Finset.mul_sum]
    exact Finset.sum_congr rfl fun j _ => by ring
  · have hcond : (isScalar C || ((CoeffId.var v : CoeffId) == CoeffId.const) ||
        (k == 1)) = false := by simp [hs, hk]
    simp only [mulPair]
    rw [if_neg (by simp [hcond]), if_pos ⟨hszC, trivial⟩]
    simp only [contrib]
    have hc : (matMul (flatten C) B).cols = B.cols := rfl
    rw [hc]
    have hentry : ∀ j, (matMul (flatten C) B).entry u j =
        (flatten C).entry u 0 * B.entry 0 j := by
      intro j
      have h1 : (matMul (flatten C) B).entry u j =
          ∑ t ∈ Finset.range ((flatten C).cols), (flatten C).entry u t * B.entry t j := rfl
      rw [h1]
      have h2 : (flatten C).cols = 1 := rfl
      rw [h2, Finset.sum_range_one]
    rw [Finset.sum_congr rfl fun j _ => by rw [hentry j], Finset.mul_sum]
    exact Finset.sum_congr rfl fun j _ => by ring

/-- The SUM case of the reconstruction law, by induction over the argument
list: concatenating the children's triples reconstructs the pointwise sum. -/
theorem sum_case_aux (Γ : ℕ → ℕ × ℕ) (sz : ℕ × ℕ) :
    ∀ args : List LinOp, (∀ a ∈ args, a.size = sz) →
    (∀ a ∈ args, ∃ cs, get_coefficients a = .ok cs ∧
      (∀ t ∈ cs, CoeffOK Γ a.size t) ∧
      ∀ σ, Conforms Γ σ → ∀ i, i < a.size.1 * a.size.2 →
        (flatten (eval σ a)).entry i 0 = recon σ cs i) →
    ∃ cs, sum_coeffs args = .ok cs ∧ (∀ t ∈ cs, CoeffOK Γ sz t) ∧
      ∀ σ, Conforms Γ σ → ∀ i, i < sz.1 * sz.2 →
        evalArgsSum σ args (i % sz.1) (i / sz.1) = recon σ cs i := by
  intro args
  induction args with
  | nil =>
    intro _ _
    refine ⟨[], by rw [sum_coeffs], by simp, fun σ hσ i hi => ?_⟩
    rw [evalArgsSum, recon_nil]
  | cons a rest ihl =>
    intro hsizes hchild
    obtain ⟨cs1, hg1, hok1, hrec1⟩ := hchild a (by simp)
    obtain ⟨cs2, hg2, hok2, hrec2⟩ := ihl
      (fun x hx => hsizes x (List.mem_cons_of_mem a hx))
      (fun x hx => hchild x (List.mem_cons_of_mem a hx))
    have hsa : a.size = sz := hsizes a (by simp)
    refine ⟨cs1 ++ cs2, ?_, ?_, ?_⟩
    · rw [sum_coeffs]
      simp [hg1, hg2, bind, Except.bind]
    · intro t ht
      rcases List.mem_append.mp ht with h | h
      · have h2 := hok1 t h
        rwa [hsa] at h2
      · exact hok2 t h
    · intro σ hσ i hi
      rw [evalArgsSum, recon_append]
      have e1 : (eval σ a).entry (i % sz.1) (i / sz.1) = recon σ cs1 i := by
        have h := hrec1 σ hσ i (by rw [hsa]; exact hi)
        rw [flatten_entry, eval_rows, hsa] at h
        exact h
      rw [e1, hrec2 σ hσ i hi]

/-- C1 amended: the reconstruction law on well-formed trees.  For every
well-formed node the compiler succeeds, emits dimensionally disciplined
triples, and for every conforming assignment the vectorized direct
evaluation equals the sum of block times vec(value) over the variable
triples plus the flattened constant blocks. -/
theorem C1_reconstruction (Γ : ℕ → ℕ × ℕ) (n : LinOp) (hw : WF Γ n) :
    ∃ cs, get_coefficients n = .ok cs ∧ (∀ t ∈ cs, CoeffOK Γ n.size t) ∧
      ∀ σ, Conforms Γ σ → ∀ i, i < n.size.1 * n.size.2 →
        (flatten (eval σ n)).entry i 0 = recon σ cs i := by
  induction hw with
  | var id r c hr hc hΓ =>
    refine ⟨[⟨.var id, (r, c), spEye (r * c)⟩], by simp [get_coefficients], ?_, ?_⟩
    · intro t ht
      simp only [List.mem_singleton] at ht
      subst ht
      refine ⟨hΓ.symm, ?_, ?_⟩
      · show r * c = (r, c).1 * (r, c).2
        rfl
      · show r * c = (Γ id).1 * (Γ id).2
        rw [hΓ]
    · intro σ hσ i hi
      simp only [LinOp.size] at hi
      rw [flatten_entry, eval_rows]
      simp only [LinOp.size, eval, recon, List.map_cons, List.map_nil, List.sum_cons,
        List.sum_nil, add_zero, contrib]
      have hcols : (spEye (r * c)).cols = r * c := rfl
      rw [hcols, eye_mulvec (r * c) i hi, flatten_entry, (hσ id).1, hΓ]
  | param sz val h1 h2 hvr hvc =>
    refine ⟨[⟨.const, sz, val⟩], by simp [get_coefficients], ?_, ?_⟩
    · intro t ht
      simp only [List.mem_singleton] at ht
      subst ht
      exact ⟨hvr, hvc⟩
    · intro σ hσ i hi
      rw [flatten_entry, eval_rows]
      simp only [LinOp.size, eval, recon, List.map_cons, List.map_nil, List.sum_cons,
        List.sum_nil, add_zero, contrib, flatten_entry]
      rw [hvr]
  | sconst sz val h1 h2 hvr hvc =>
    refine ⟨[⟨.const, sz, val⟩], by simp [get_coefficients], ?_, ?_⟩
    · intro t ht
      simp only [List.mem_singleton] at ht
      subst ht
      exact ⟨hvr, hvc⟩
    · intro σ hσ i hi
      rw [flatten_entry, eval_rows]
      simp only [LinOp.size, eval, recon, List.map_cons, List.map_nil, List.sum_cons,
        List.sum_nil, add_zero, contrib, flatten_entry]
      rw [hvr]
  | dconst sz val h1 h2 hvr hvc =>
    refine ⟨[⟨.const, sz, val⟩], by simp [get_coefficients], ?_, ?_⟩
    · intro t ht
      simp only [List.mem_singleton] at ht
      subst ht
      exact ⟨hvr, hvc⟩
    · intro σ hσ i hi
      rw [flatten_entry, eval_rows]
      simp only [LinOp.size, eval, recon, List.map_cons, List.map_nil, List.sum_cons,
        List.sum_nil, add_zero, contrib, flatten_entry]
      rw [hvr]
  | spconst sz val h1 h2 hvr hvc =>
    refine ⟨[⟨.const, sz, val⟩], by simp [get_coefficients], ?_, ?_⟩
    · intro t ht
      simp only [List.mem_singleton] at ht
      subst ht
      exact ⟨hvr, hvc⟩
    · intro σ hσ i hi
      rw [flatten_entry, eval_rows]
      simp only [LinOp.size, eval, recon, List.map_cons, List.map_nil, List.sum_cons,
        List.sum_nil, add_zero, contrib, flatten_entry]
      rw [hvr]
  | sum sz args h1 h2 hsizes hwfs ih =>
    obtain ⟨cs, hg, hok, hrec⟩ := sum_case_aux Γ sz args hsizes ih
    refine ⟨cs, ?_, ?_, ?_⟩
    · rw [show get_coefficients (.SUM sz args) = sum_coeffs args from by
        simp [get_coefficients]]
      exact hg
    · simp only [LinOp.size]
      exact hok
    · intro σ hσ i hi
      simp only [LinOp.size] at hi
      rw [flatten_entry, eval_rows]
      simp only [LinOp.size, eval]
      exact hrec σ hσ i hi
  | neg sz a hsz hwf ih =>
    obtain ⟨cs, hg, hok, hrec⟩ := ih
    refine ⟨cs.map fun t => ⟨t.id, t.size, negMat t.block⟩, ?_, ?_, ?_⟩
    · rw [show get_coefficients (.NEG sz a) = neg_coeffs a from by
        simp [get_coefficients]]
      rw [neg_coeffs]
      simp [hg, bind, Except.bind]
    · intro t ht
      simp only [List.mem_map] at ht
      obtain ⟨u, hu, rfl⟩ := ht
      have h := hok u hu
      rcases u with ⟨uid, usz, uB⟩
      cases uid
      · simp only [CoeffOK, negMat, LinOp.size] at h ⊢
        rw [← hsz]
        exact h
      · simp only [CoeffOK, negMat, LinOp.size] at h ⊢
        rw [← hsz]
        exact h
    · intro σ hσ i hi
      simp only [LinOp.size] at hi
      rw [flatten_entry, eval_rows]
      simp only [LinOp.size, eval]
      rw [recon_map]
      rw [list_sum_congr cs _ _ (fun t _ => contrib_neg σ t i)]
      rw [list_sum_neg]
      have h := hrec σ hσ i (by rw [hsz]; exact hi)
      rw [flatten_entry, eval_rows, hsz] at h
      rw [h]
      rfl
  | sumEntries a hwf ih =>
    obtain ⟨cs, hg, hok, hrec⟩ := ih
    refine ⟨cs.map sumEntriesTriple, ?_, ?_, ?_⟩
    · rw [show get_coefficients (.SUM_ENTRIES (1, 1) a) = sum_entries_coeffs a from by
        simp [get_coefficients]]
      rw [sum_entries_coeffs]
      simp [hg, bind, Except.bind]
    · intro t ht
      simp only [List.mem_map] at ht
      obtain ⟨u, hu, rfl⟩ := ht
      have h := hok u hu
      rcases u with ⟨uid, usz, uB⟩
      cases uid with
      | const =>
        exact ⟨by trivial, by trivial⟩
      | var v =>
        simp only [CoeffOK] at h
        obtain ⟨hu1, hu2, hu3⟩ := h
        exact ⟨hu1, by trivial, hu3⟩
    · intro σ hσ i hi
      simp only [LinOp.size] at hi
      have hi0 : i = 0 := by omega
      subst hi0
      rw [flatten_entry, eval_rows]
      simp only [LinOp.size, eval]
      have step1 : ∀ q ∈ Finset.range a.size.2, ∀ p ∈ Finset.range a.size.1,
          (eval σ a).entry p q = recon σ cs (q * a.size.1 + p) := by
        intro q hq p hp
        have hb := encode_lt (Finset.mem_range.mp hq) (Finset.mem_range.mp hp)
        have h := hrec σ hσ (q * a.size.1 + p)
          (by rw [Nat.mul_comm a.size.1 a.size.2]; exact hb)
        rw [flatten_entry, eval_rows] at h
        rw [encode_mod (Finset.mem_range.mp hp), encode_div (Finset.mem_range.mp hp)]
          at h
        exact h
      calc ∑ p ∈ Finset.range a.size.1, ∑ q ∈ Finset.range a.size.2,
            (eval σ a).entry p q
          = ∑ q ∈ Finset.range a.size.2, ∑ p ∈ Finset.range a.size.1,
            (eval σ a).entry p q := Finset.sum_comm
        _ = ∑ q ∈ Finset.range a.size.2, ∑ p ∈ Finset.range a.size.1,
            recon σ cs (q * a.size.1 + p) :=
            Finset.sum_congr rfl fun q hq => Finset.sum_congr rfl fun p hp =>
              step1 q hq p hp
        _ = ∑ idx ∈ Finset.range (a.size.1 * a.size.2), recon σ cs idx :=
            (sum_vec_decomp _ a.size.1 a.size.2).symm
        _ = (cs.map fun t =>
            ∑ idx ∈ Finset.range (a.size.1 * a.size.2), contrib σ t idx).sum :=
            finset_sum_recon σ cs _
        _ = (cs.map fun t => contrib σ (sumEntriesTriple t) 0).sum := by
            refine list_sum_congr cs _ _ fun t ht => ?_
            have h := hok t ht
            rcases t with ⟨tid, tsz, tB⟩
            cases tid with
            | const =>
              obtain ⟨hb1, hb2⟩ := h
              rw [← hb1, ← hb2, (contrib_sumEntries_const σ tsz tB).symm]
            | var v =>
              obtain ⟨hb1, hb2, hb3⟩ := h
              rw [← hb2, (contrib_sumEntries_var σ tsz v tB).symm]
        _ = recon σ (cs.map sumEntriesTriple) 0 := (recon_map σ sumEntriesTriple cs 0).symm
  | index sz a hsz hwf ih =>
    obtain ⟨cs, hg, hok, hrec⟩ := ih
    have hpos := WF_pos hwf
    rw [show get_coefficients (.INDEX sz (fullSlice, fullSlice) a) =
        index_coeffs sz (fullSlice, fullSlice) a from by simp [get_coefficients]]
    rw [index_coeffs, hg]
    simp only [bind, Except.bind]
    refine ⟨_, Eq.refl _, ?_, ?_⟩
    · intro t ht
      simp only [List.mem_map] at ht
      obtain ⟨u, hu, rfl⟩ := ht
      have h := hok u hu
      rcases u with ⟨uid, usz, uB⟩
      cases uid with
      | const =>
        obtain ⟨hb1, hb2⟩ := h
        have heq := matIndex_full uB
        refine ⟨?_, ?_⟩
        · show (matIndex uB (fullSlice, fullSlice)).rows = sz.1
          rw [heq.1, hb1, hsz]
        · show (matIndex uB (fullSlice, fullSlice)).cols = sz.2
          rw [heq.2.1, hb2, hsz]
      | var v =>
        obtain ⟨hb1, hb2, hb3⟩ := h
        have heq : MatEqDim ((List.range (if usz = (1, 1) then a.size
            else (a.size.1, usz.2)).2).foldl
            (fun b col => matIndex b (offset_slice fullSlice
              (col * (if usz = (1, 1) then a.size else (a.size.1, usz.2)).1),
              fullSlice))
            (matIndex uB (scale_slice fullSlice
              (if usz = (1, 1) then a.size else (a.size.1, usz.2)).1, fullSlice))) uB := by
          rw [scale_slice_full]
          exact foldl_matIndex_full _ _ _ _ (matIndex_full uB)
        refine ⟨hb1, ?_, ?_⟩
        · rw [heq.1, hb2]
          show a.size.1 * a.size.2 = sz.1 * sz.2
          rw [hsz]
        · rw [heq.2.1]
          exact hb3
    · intro σ hσ i hi
      simp only [LinOp.size] at hi
      have hia : i < a.size.1 * a.size.2 := by
        rw [← hsz]
        exact hi
      have hsz1 : 0 < sz.1 := by rw [hsz]; exact hpos.1
      have him : i % sz.1 < (eval σ a).rows := by
        rw [eval_rows, ← hsz]
        exact Nat.mod_lt _ hsz1
      have hid2 : i / sz.1 < (eval σ a).cols := by
        rw [eval_cols, ← hsz]
        rw [Nat.div_lt_iff_lt_mul hsz1, Nat.mul_comm sz.2 sz.1]
        exact hi
      have hLHS : (flatten (eval σ (.INDEX sz (fullSlice, fullSlice) a))).entry i 0 =
          (eval σ a).entry (i % sz.1) (i / sz.1) := by
        rw [flatten_entry, eval_rows]
        simp only [LinOp.size, eval, matIndex, sliceList_full]
        rw [range_getD him, range_getD hid2]
      rw [hLHS]
      have hmid : (eval σ a).entry (i % sz.1) (i / sz.1) = recon σ cs i := by
        have h := hrec σ hσ i hia
        rw [flatten_entry, eval_rows] at h
        rw [← hsz] at h
        exact h
      rw [hmid, recon_map]
      refine (list_sum_congr cs _ _ fun t ht => ?_).symm
      have h := hok t ht
      rcases t with ⟨tid, tsz, tB⟩
      cases tid with
      | const =>
        obtain ⟨hb1, hb2⟩ := h
        show contrib σ ⟨.const, sz, matIndex tB (fullSlice, fullSlice)⟩ i =
          contrib σ (⟨.const, tsz, tB⟩ : Coeff) i
        exact contrib_const_eqdim σ sz tsz (matIndex_full tB)
          (by rw [hb1, hb2, ← hsz]; exact hi)
      | var v =>
        obtain ⟨hb1, hb2, hb3⟩ := h
        have heq : MatEqDim ((List.range (if tsz = (1, 1) then a.size
            else (a.size.1, tsz.2)).2).foldl
            (fun b col => matIndex b (offset_slice fullSlice
              (col * (if tsz = (1, 1) then a.size else (a.size.1, tsz.2)).1),
              fullSlice))
            (matIndex tB (scale_slice fullSlice
              (if tsz = (1, 1) then a.size else (a.size.1, tsz.2)).1, fullSlice))) tB := by
          rw [scale_slice_full]
          exact foldl_matIndex_full _ _ _ _ (matIndex_full tB)
        show contrib σ ⟨.var v, tsz,
            (List.range (if tsz = (1, 1) then a.size else (a.size.1, tsz.2)).2).foldl
              (fun b col => matIndex b (offset_slice fullSlice
                (col * (if tsz = (1, 1) then a.size else (a.size.1, tsz.2)).1),
                fullSlice))
              (matIndex tB (scale_slice fullSlice
                (if tsz = (1, 1) then a.size else (a.size.1, tsz.2)).1, fullSlice))⟩ i =
          contrib σ (⟨.var v, tsz, tB⟩ : Coeff) i
        exact contrib_var_eqdim σ tsz v heq (by rw [hb2, ← hsz]; exact hi)
  | transpose id r c hvar ih =>
    have hr : 0 < r := by
      cases hvar with
      | var _ _ _ hr hc hΓ => exact hr
    have hc : 0 < c := by
      cases hvar with
      | var _ _ _ hr hc hΓ => exact hc
    have hΓ : Γ id = (r, c) := by
      cases hvar with
      | var _ _ _ hr hc hΓ => exact hΓ
    refine ⟨[⟨.var id, (r, c), transposePerm r c⟩], ?_, ?_, ?_⟩
    · simp [get_coefficients, transpose_coeffs, bind, Except.bind]
    · intro t ht
      simp only [List.mem_singleton] at ht
      subst ht
      simp only [CoeffOK, LinOp.size]
      refine ⟨hΓ.symm, ?_, ?_⟩
      · show r * c = c * r
        rw [Nat.mul_comm]
      · show r * c = (Γ id).1 * (Γ id).2
        rw [hΓ]
    · intro σ hσ i hi
      simp only [LinOp.size] at hi
      have hirc : i < r * c := by rw [Nat.mul_comm]; exact hi
      rw [flatten_entry, eval_rows]
      simp only [LinOp.size, eval, recon, List.map_cons, List.map_nil, List.sum_cons,
        List.sum_nil, add_zero, contrib]
      have hcols : (transposePerm r c).cols = r * c := rfl
      rw [hcols, transposePerm_mulvec r c i hirc, flatten_entry, (hσ id).1, hΓ]
      have hdc : i / c < r := by
        have hcpos : 0 < c := hc
        rw [Nat.div_lt_iff_lt_mul hcpos]
        exact hirc
      show (σ id).entry (i / c) (i % c) =
        (σ id).entry ((i % c * r + i / c) % (r, c).1) ((i % c * r + i / c) / (r, c).1)
      rw [show ((r, c).1 : ℕ) = r from rfl]
      rw [encode_mod hdc, encode_div hdc]
  | mulMat m k n l r hl hr hcs hdisj hwl hwr ihl ihr =>
    obtain ⟨csl, hgl, hokl, hrecl⟩ := ihl
    obtain ⟨szC, C, hC⟩ := hcs
    have hcseq : csl = [⟨.const, szC, C⟩] := by
      rw [hgl] at hC
      exact Except.ok.inj hC
    subst hcseq
    have hokC := hokl ⟨.const, szC, C⟩ (by simp)
    rw [hl] at hokC
    obtain ⟨hCr, hCc⟩ := hokC
    obtain ⟨rs, hgr, hokr, hrecr⟩ := ihr
    have hm : 0 < m := by
      have h := WF_pos hwl
      rw [hl] at h
      exact h.1
    have hk : 0 < k := by
      have h := WF_pos hwl
      rw [hl] at h
      exact h.2
    have hn : 0 < n := by
      have h := WF_pos hwr
      rw [hr] at h
      exact h.2
    have hdisj2 : ∀ u ∈ rs, (m = 1 ∧ k = 1) ∨ n = 1 ∨
        (∀ v, u.id = .var v → u.size ≠ (1, 1)) := by
      intro u hu
      rcases hdisj with h | h | h
      · exact Or.inl h
      · exact Or.inr (Or.inl h)
      · exact Or.inr (Or.inr (fun v hv => h rs hgr u hu v hv))
    refine ⟨rs.map (mulPair n ⟨.const, szC, C⟩), ?_, ?_, ?_⟩
    · rw [show get_coefficients (.MUL (m, n) l r) = mul_coeffs (m, n) l r from by
        simp [get_coefficients]]
      rw [mul_coeffs, hC, hgr]
      simp [mulLoop, bind, Except.bind]
    · intro t ht
      simp only [List.mem_map] at ht
      obtain ⟨u, hu, rfl⟩ := ht
      have hoku := hokr u hu
      rw [hr] at hoku
      simp only [LinOp.size]
      exact mulPair_dims_matmul Γ m k n szC C hCr hCc u hoku (hdisj2 u hu)
    · intro σ hσ i hi
      simp only [LinOp.size] at hi
      have hrow : i % m < m := Nat.mod_lt _ hm
      have hcol : i / m < n := by
        rw [Nat.div_lt_iff_lt_mul hm, Nat.mul_comm n m]
        exact hi
      have hieq : (i / m) * m + i % m = i := by
        rw [Nat.mul_comm]
        exact Nat.div_add_mod i m
      have hCev : ∀ p, p < m → ∀ q, q < k → (eval σ l).entry p q = C.entry p q := by
        intro p hp q hq
        exact eval_const_entries σ l szC C m k hl hCr hCc
          (fun j hj => hrecl σ hσ j (by rw [hl]; exact hj)) hp hq
      have hRev : ∀ t, t < k → (eval σ r).entry t (i / m) = recon σ rs ((i / m) * k + t) := by
        intro t ht
        have hb : (i / m) * k + t < k * n := by
          rw [Nat.mul_comm k n]
          exact encode_lt hcol ht
        have h := hrecr σ hσ ((i / m) * k + t) (by rw [hr]; exact hb)
        rw [flatten_entry, eval_rows, hr] at h
        rw [show (((k, n).1 : ℕ)) = k from rfl] at h
        rw [encode_mod ht, encode_div ht] at h
        exact h
      calc (flatten (eval σ (.MUL (m, n) l r))).entry i 0
          = (eval σ (.MUL (m, n) l r)).entry (i % m) (i / m) := by
            rw [flatten_entry, eval_rows]
            exact rfl
        _ = ∑ t ∈ Finset.range k, (eval σ l).entry (i % m) t *
            (eval σ r).entry t (i / m) :=
            eval_mul_matmul σ m k n l r hl hr hrow hcol
        _ = ∑ t ∈ Finset.range k, C.entry (i % m) t * recon σ rs ((i / m) * k + t) :=
            Finset.sum_congr rfl fun t ht => by
              rw [hCev (i % m) hrow t (Finset.mem_range.mp ht),
                hRev t (Finset.mem_range.mp ht)]
        _ = (rs.map fun T => ∑ t ∈ Finset.range k,
            C.entry (i % m) t * contrib σ T ((i / m) * k + t)).sum := by
            rw [show (fun T => ∑ t ∈ Finset.range k,
              C.entry (i % m) t * contrib σ T ((i / m) * k + t)) =
              fun T => ∑ t ∈ Finset.range k,
              C.entry (i % m) t * contrib σ T ((i / m) * k + t) from rfl]
            exact sum_mul_list_swap (fun t => C.entry (i % m) t) (Finset.range k) rs
              (fun T t => contrib σ T ((i / m) * k + t))
        _ = (rs.map fun T => contrib σ (mulPair n ⟨.const, szC, C⟩ T) i).sum := by
            refine list_sum_congr rs _ _ fun u hu => ?_
            have hoku := hokr u hu
            rw [hr] at hoku
            have hco : u.id = .const → u.block.rows = k ∧ u.block.cols = n := by
              intro hc2
              rcases u with ⟨uid, usz, uB⟩
              cases uid with
              | const => exact hoku
              | var v => cases hc2
            have hva : ∀ v, u.id = .var v → u.block.rows = k * n := by
              intro v hv
              rcases u with ⟨uid, usz, uB⟩
              cases uid with
              | const => cases hv
              | var w => exact hoku.2.1
            have h := mulPair_contrib_matmul σ m k n szC C hCr hCc u hco hva
              (hdisj2 u hu) hrow hcol
            rw [hieq] at h
            exact h.symm
        _ = recon σ (rs.map (mulPair n ⟨.const, szC, C⟩)) i :=
            (recon_map σ (mulPair n ⟨.const, szC, C⟩) rs i).symm
  | mulScalarLeft l r hl1 hrne hcs hwl hwr ihl ihr =>
    obtain ⟨csl, hgl, hokl, hrecl⟩ := ihl
    obtain ⟨szC, C, hC⟩ := hcs
    have hcseq : csl = [⟨.const, szC, C⟩] := by
      rw [hgl] at hC
      exact Except.ok.inj hC
    subst hcseq
    have hokC := hokl ⟨.const, szC, C⟩ (by simp)
    rw [hl1] at hokC
    have hCr : C.rows = 1 := hokC.1
    have hCc : C.cols = 1 := hokC.2
    have hs : isScalar C = true := by simp [isScalar, hCr, hCc]
    obtain ⟨rs, hgr, hokr, hrecr⟩ := ihr
    refine ⟨rs.map (mulPair r.size.2 ⟨.const, szC, C⟩), ?_, ?_, ?_⟩
    · rw [show get_coefficients (.MUL r.size l r) = mul_coeffs r.size l r from by
        simp [get_coefficients]]
      rw [mul_coeffs, hC, hgr]
      simp [mulLoop, bind, Except.bind]
    · intro t ht
      simp only [List.mem_map] at ht
      obtain ⟨u, hu, rfl⟩ := ht
      exact mulPair_dims_scalar Γ r.size r.size.2 szC C hs u (hokr u hu)
    · intro σ hσ i hi
      have hi2 : i < r.size.1 * r.size.2 := hi
      have hsz1 : (LinOp.MUL r.size l r).size.1 = r.size.1 := rfl
      rw [flatten_entry, eval_rows, hsz1]
      simp only [eval]
      rw [if_pos ⟨hl1, hrne⟩]
      have hC00 : (eval σ l).entry 0 0 = C.entry 0 0 := by
        refine eval_const_entries σ l szC C 1 1 hl1 hCr hCc
          (fun j hj => hrecl σ hσ j (by rw [hl1]; exact hj)) ?_ ?_ <;> omega
      have hRi : (eval σ r).entry (i % r.size.1) (i / r.size.1) = recon σ rs i := by
        have h := hrecr σ hσ i hi2
        rw [flatten_entry, eval_rows] at h
        exact h
      have hper : ∀ u ∈ rs, contrib σ (mulPair r.size.2 ⟨.const, szC, C⟩ u) i =
          C.entry 0 0 * contrib σ u i := by
        intro u _
        rcases u with ⟨uid, usz, uB⟩
        simp only [mulPair]
        rw [if_pos (by simp [hs] : (isScalar C || ((uid : CoeffId) == CoeffId.const) ||
          (r.size.2 == 1)) = true)]
        rw [pyMulConst, if_pos hs, contrib_smul]
      rw [hC00, hRi, recon_map, list_sum_congr rs _ _ hper, list_sum_mul]
      exact rfl
  | mulScalarRight l r hlne hr1 hex hall hwl hwr ihl ihr =>
    obtain ⟨csl, hgl, hokl, hrecl⟩ := ihl
    obtain ⟨szC, C, hC, hszC⟩ := hex
    have hcseq : csl = [⟨.const, szC, C⟩] := by
      rw [hgl] at hC
      exact Except.ok.inj hC
    subst hcseq
    have hokC := hokl ⟨.const, szC, C⟩ (by simp)
    have hCr : C.rows = l.size.1 := hokC.1
    have hCc : C.cols = l.size.2 := hokC.2
    obtain ⟨rs, hgr, hokr, hrecr⟩ := ihr
    have hmk : ¬(l.size.1 = 1 ∧ l.size.2 = 1) := by
      intro hcc
      exact hlne (Prod.ext hcc.1 hcc.2)
    have hm : 0 < l.size.1 := (WF_pos hwl).1
    refine ⟨rs.map (mulPair l.size.2 ⟨.const, szC, C⟩), ?_, ?_, ?_⟩
    · rw [show get_coefficients (.MUL l.size l r) = mul_coeffs l.size l r from by
        simp [get_coefficients]]
      rw [mul_coeffs, hC, hgr]
      simp [mulLoop, bind, Except.bind]
    · intro t ht
      simp only [List.mem_map] at ht
      obtain ⟨u, hu, rfl⟩ := ht
      obtain ⟨hune, husz⟩ := hall rs hgr u hu
      have hoku := hokr u hu
      rw [hr1] at hoku
      rcases u with ⟨uid, usz, uB⟩
      cases uid with
      | const => exact absurd (Eq.refl _) hune
      | var v =>
        obtain ⟨h1, h2, h3⟩ := hoku
        simp only at husz
        subst husz
        exact mulPair_dims_scalarRight Γ l.size.1 l.size.2 szC C hCr hCc hmk hszC v uB
          h1 h3
    · intro σ hσ i hi
      have hi2 : i < l.size.1 * l.size.2 := hi
      have hsz1 : (LinOp.MUL l.size l r).size.1 = l.size.1 := rfl
      rw [flatten_entry, eval_rows, hsz1]
      simp only [eval]
      rw [if_neg (fun hcc => hlne hcc.1), if_pos ⟨hr1, hlne⟩]
      have hCev : (eval σ l).entry (i % l.size.1) (i / l.size.1) =
          C.entry (i % l.size.1) (i / l.size.1) := by
        refine eval_const_entries σ l szC C l.size.1 l.size.2 (Prod.mk.eta.symm) hCr hCc
          (fun j hj => hrecl σ hσ j hj) (Nat.mod_lt _ hm) ?_
        rw [Nat.div_lt_iff_lt_mul hm, Nat.mul_comm]
        exact hi2
      have hR00 : (eval σ r).entry 0 0 = recon σ rs 0 := by
        have h := hrecr σ hσ 0 (by rw [hr1]; omega)
        rw [flatten_entry, eval_rows, hr1] at h
        exact h
      have hper : ∀ u ∈ rs, contrib σ (mulPair l.size.2 ⟨.const, szC, C⟩ u) i =
          (flatten C).entry i 0 * contrib σ u 0 := by
        intro u hu
        obtain ⟨hune, husz⟩ := hall rs hgr u hu
        rcases u with ⟨uid, usz, uB⟩
        cases uid with
        | const => exact absurd (Eq.refl _) hune
        | var v =>
          simp only at husz
          subst husz
          exact mulPair_contrib_scalarRight σ l.size.1 l.size.2 szC C hCr hCc hmk hszC
            v uB hi2
      rw [hCev, hR00, recon_map, list_sum_congr rs _ _ hper, list_sum_mul]
      rw [flatten_entry, hCr]
      exact rfl

/-- Witness for C1: the reconstruction law instantiated at the bare (2,2)
variable under the constant shape context mapping every identifier to
(2,2). -/
theorem C1_reconstruction_witness :
    WF (fun _ => (2, 2)) v22 ∧
    (∃ cs, get_coefficients v22 = .ok cs ∧ (∀ t ∈ cs, CoeffOK (fun _ => (2, 2)) v22.size t) ∧
      ∀ σ, Conforms (fun _ => (2, 2)) σ → ∀ i, i < v22.size.1 * v22.size.2 →
        (flatten (eval σ v22)).entry i 0 = recon σ cs i) :=
  ⟨WF.var 0 2 2 (by decide) (by decide) rfl,
   C1_reconstruction (fun _ => (2, 2)) v22 (WF.var 0 2 2 (by decide) (by decide) rfl)⟩

end Lin
